import Mathlib

/-!
Verification of the parameter specification parser, value coercer and
request validation pipeline of express-version-router
(src/lib/apiVerifier.js), as a shallow embedding in Lean.

JavaScript numbers are modelled as exact rationals; every numeric literal
exercised by the theorems below is a small decimal on which IEEE doubles
are exact.  Functions are modelled as tagged identifiers; callable hooks
are resolved through an explicit environment where the code invokes them.
-/

/-- Model of a JavaScript runtime value.  `nan` and the two infinities are
kept apart from finite numbers so that NaN propagation can be tracked. -/
inductive JSValue where
  | undefined
  | null
  | bool (b : Bool)
  | num (q : ℚ)
  | nan
  | inf (neg : Bool)
  | str (s : String)
  | fn (id : Nat)
  | arr (elems : List JSValue)
  deriving Repr

mutual

/-- Decidable equality of values, by mutual structural recursion with the
nested element lists. -/
def decEqJSValue : (a b : JSValue) → Decidable (a = b)
  | .undefined, .undefined => isTrue rfl
  | .null, .null => isTrue rfl
  | .nan, .nan => isTrue rfl
  | .bool x, .bool y => if h : x = y then isTrue (by rw [h]) else isFalse (by simp [h])
  | .num x, .num y => if h : x = y then isTrue (by rw [h]) else isFalse (by simp [h])
  | .inf x, .inf y => if h : x = y then isTrue (by rw [h]) else isFalse (by simp [h])
  | .str x, .str y => if h : x = y then isTrue (by rw [h]) else isFalse (by simp [h])
  | .fn x, .fn y => if h : x = y then isTrue (by rw [h]) else isFalse (by simp [h])
  | .arr xs, .arr ys =>
      match decEqJSValueList xs ys with
      | isTrue h => isTrue (by rw [h])
      | isFalse h => isFalse (by simp [h])
  | .undefined, .null
  | .undefined, .bool _
  | .undefined, .num _
  | .undefined, .nan
  | .undefined, .inf _
  | .undefined, .str _
  | .undefined, .fn _
  | .undefined, .arr _
  | .null, .undefined
  | .null, .bool _
  | .null, .num _
  | .null, .nan
  | .null, .inf _
  | .null, .str _
  | .null, .fn _
  | .null, .arr _
  | .bool _, .undefined
  | .bool _, .null
  | .bool _, .num _
  | .bool _, .nan
  | .bool _, .inf _
  | .bool _, .str _
  | .bool _, .fn _
  | .bool _, .arr _
  | .num _, .undefined
  | .num _, .null
  | .num _, .bool _
  | .num _, .nan
  | .num _, .inf _
  | .num _, .str _
  | .num _, .fn _
  | .num _, .arr _
  | .nan, .undefined
  | .nan, .null
  | .nan, .bool _
  | .nan, .num _
  | .nan, .inf _
  | .nan, .str _
  | .nan, .fn _
  | .nan, .arr _
  | .inf _, .undefined
  | .inf _, .null
  | .inf _, .bool _
  | .inf _, .num _
  | .inf _, .nan
  | .inf _, .str _
  | .inf _, .fn _
  | .inf _, .arr _
  | .str _, .undefined
  | .str _, .null
  | .str _, .bool _
  | .str _, .num _
  | .str _, .nan
  | .str _, .inf _
  | .str _, .fn _
  | .str _, .arr _
  | .fn _, .undefined
  | .fn _, .null
  | .fn _, .bool _
  | .fn _, .num _
  | .fn _, .nan
  | .fn _, .inf _
  | .fn _, .str _
  | .fn _, .arr _
  | .arr _, .undefined
  | .arr _, .null
  | .arr _, .bool _
  | .arr _, .num _
  | .arr _, .nan
  | .arr _, .inf _
  | .arr _, .str _
  | .arr _, .fn _ => isFalse (fun h => JSValue.noConfusion h)

/-- Decidable equality of value lists. -/
def decEqJSValueList : (a b : List JSValue) → Decidable (a = b)
  | [], [] => isTrue rfl
  | [], _ :: _ => isFalse (fun h => List.noConfusion h)
  | _ :: _, [] => isFalse (fun h => List.noConfusion h)
  | x :: xs, y :: ys =>
      match decEqJSValue x y, decEqJSValueList xs ys with
      | isTrue h1, isTrue h2 => isTrue (by rw [h1, h2])
      | isFalse h1, _ => isFalse (by simp [h1])
      | _, isFalse h2 => isFalse (by simp [h2])

end

instance : DecidableEq JSValue := decEqJSValue

/-- Result of the abstract ToNumber conversion. -/
inductive NumVal where
  | nan
  | inf (neg : Bool)
  | fin (q : ℚ)
  deriving DecidableEq, Repr

/-- ToBoolean: the JavaScript truthiness test. -/
def jsTruthy : JSValue → Bool
  | .undefined => false
  | .null => false
  | .nan => false
  | .bool b => b
  | .num q => if q = 0 then false else true
  | .str s => if s = "" then false else true
  | .inf _ => true
  | .fn _ => true
  | .arr _ => true

/-- Test for the value `undefined` (the strict comparison `=== undefined`). -/
def jsIsUndefined : JSValue → Bool
  | .undefined => true
  | _ => false

/-- Logical OR `a || b`: the first operand if truthy, otherwise the second. -/
def jsOr (a b : JSValue) : JSValue :=
  if jsTruthy a then a else b

/-- Floor of a rational as an integer, via euclidean division. -/
def ratFloor (q : ℚ) : ℤ := Int.ediv q.num q.den

/-- Truncation of a rational toward zero. -/
def ratTrunc (q : ℚ) : ℤ := if q < 0 then -(ratFloor (-q)) else ratFloor q

/-- Decimal digit characters of the fractional part of a rational in
[0, 1), produced most significant first, at most the given number. -/
def fracDigits : ℚ → Nat → String
  | _, 0 => ""
  | q, Nat.succ k =>
      if q = 0 then ""
      else
        let d : ℤ := ratFloor (q * 10)
        toString d ++ fracDigits (q * 10 - (d : ℚ)) k

/-- Decimal rendering of a nonnegative rational (integer part, then up to
twenty fraction digits; parsed literals always have a finite expansion). -/
def numToStringNN (q : ℚ) : String :=
  let n : ℤ := ratFloor q
  let frac := q - (n : ℚ)
  if frac = 0 then toString n else toString n ++ "." ++ fracDigits frac 20

/-- Number-to-String conversion.  JavaScript switches to exponent notation
outside [1e-6, 1e21); the values reaching this function in the verified
code are parsed literals inside that range, rendered plainly. -/
def numToString (q : ℚ) : String :=
  if q < 0 then "-" ++ numToStringNN (-q) else numToStringNN q

mutual

/-- ToString conversion of a value. -/
def jsToStringV : JSValue → String
  | .undefined => "undefined"
  | .null => "null"
  | .bool b => if b then "true" else "false"
  | .nan => "NaN"
  | .inf n => if n then "-Infinity" else "Infinity"
  | .num q => numToString q
  | .str s => s
  | .fn _ => "function"
  | .arr xs => arrJoin xs

/-- Array-to-String: elements joined by commas, with `undefined` and
`null` elements rendered as empty strings. -/
def arrJoin : List JSValue → String
  | [] => ""
  | [x] =>
      match x with
      | .undefined => ""
      | .null => ""
      | v => jsToStringV v
  | x :: xs =>
      (match x with
       | .undefined => ""
       | .null => ""
       | v => jsToStringV v) ++ "," ++ arrJoin xs

end

/-- Numeric value of a decimal digit character. -/
def digitVal (c : Char) : Nat := c.toNat - 48

/-- Value of a list of decimal digit characters. -/
def digitsToNat (l : List Char) : Nat :=
  l.foldl (fun a c => a * 10 + digitVal c) 0

/-- Hexadecimal digit test. -/
def isHexDigit (c : Char) : Bool :=
  c.isDigit || (('a' ≤ c && c ≤ 'f') || ('A' ≤ c && c ≤ 'F'))

/-- Numeric value of a hexadecimal digit character. -/
def hexDigitVal (c : Char) : Nat :=
  if c.isDigit then c.toNat - 48
  else if 'a' ≤ c && c ≤ 'f' then c.toNat - 87
  else c.toNat - 55

/-- Value of a list of hexadecimal digit characters. -/
def hexToNat (l : List Char) : Nat :=
  l.foldl (fun a c => a * 16 + hexDigitVal c) 0

/-- Leading run of decimal digits, and the remainder. -/
def takeDigits (l : List Char) : List Char × List Char :=
  (l.takeWhile Char.isDigit, l.dropWhile Char.isDigit)

/-- Optional leading sign; returns (isNegative, rest). -/
def parseSign : List Char → Bool × List Char
  | '+' :: r => (false, r)
  | '-' :: r => (true, r)
  | r => (false, r)

/-- Exponent read by parseFloat after the mantissa: an `e`/`E`, an
optional sign and digits; contributes 0 when the digits are missing. -/
def parseExpAfter (r : List Char) : ℤ :=
  let sr := parseSign r
  let ds := (takeDigits sr.2).1
  if ds = [] then 0
  else if sr.1 then -(digitsToNat ds : ℤ) else (digitsToNat ds : ℤ)

/-- Dispatch on the `e`/`E` exponent marker. -/
def parseExpSuffix (l : List Char) : ℤ :=
  match l with
  | 'e' :: r => parseExpAfter r
  | 'E' :: r => parseExpAfter r
  | _ => 0

/-- The global parseFloat applied to a string: skip leading whitespace,
optional sign, then the longest prefix that is `Infinity` or a decimal
literal with optional fraction and exponent; NaN when no prefix parses. -/
def parseFloatStr (s : String) : JSValue :=
  let l := s.data.dropWhile Char.isWhitespace
  let sr := parseSign l
  if sr.2.take 8 = "Infinity".data then .inf sr.1
  else
    let ipr := takeDigits sr.2
    let fpr : List Char × List Char :=
      match ipr.2 with
      | '.' :: rf => takeDigits rf
      | _ => ([], ipr.2)
    if ipr.1 = [] ∧ fpr.1 = [] then .nan
    else
      let e := parseExpSuffix fpr.2
      let mant : ℚ := (digitsToNat ipr.1 : ℚ) + (digitsToNat fpr.1 : ℚ) / (10 : ℚ) ^ fpr.1.length
      let v : ℚ := mant * (10 : ℚ) ^ e
      .num (if sr.1 then -v else v)

/-- The global parseInt applied to a string with no radix argument: skip
leading whitespace, optional sign, `0x`/`0X` prefix selects base 16,
otherwise the longest prefix of decimal digits; NaN when empty. -/
def parseIntStr (s : String) : JSValue :=
  let l := s.data.dropWhile Char.isWhitespace
  let sr := parseSign l
  match sr.2 with
  | '0' :: 'x' :: r =>
      let hs := r.takeWhile isHexDigit
      if hs = [] then .nan
      else .num (if sr.1 then -(hexToNat hs : ℤ) else (hexToNat hs : ℤ))
  | '0' :: 'X' :: r =>
      let hs := r.takeWhile isHexDigit
      if hs = [] then .nan
      else .num (if sr.1 then -(hexToNat hs : ℤ) else (hexToNat hs : ℤ))
  | l1 =>
      let ds := (takeDigits l1).1
      if ds = [] then .nan
      else .num (if sr.1 then -(digitsToNat ds : ℤ) else (digitsToNat ds : ℤ))

/-- Drop leading and trailing whitespace from a character list (the
String.prototype.trim operation). -/
def jsTrimL (l : List Char) : List Char :=
  ((l.dropWhile Char.isWhitespace).reverse.dropWhile Char.isWhitespace).reverse

/-- ASCII lowercasing of a character list. -/
def jsToLowerL (l : List Char) : List Char := l.map Char.toLower

/-- String trim followed by lowercasing, as string. -/
def jsLowerTrim (s : String) : String := String.mk (jsToLowerL (jsTrimL s.data))

/-- Lowercasing at the string level. -/
def jsToLower (s : String) : String := String.mk (jsToLowerL s.data)

/-- ToNumber of a whole string (the StringNumericLiteral grammar): empty
or all-whitespace is 0, a hexadecimal literal has no sign, otherwise an
optional sign followed by `Infinity` or a fully consumed decimal. -/
def strToNumber (s : String) : NumVal :=
  let l := jsTrimL s.data
  if l = [] then .fin 0
  else
    match l with
    | '0' :: 'x' :: r => if r ≠ [] ∧ r.all isHexDigit then .fin (hexToNat r : ℚ) else .nan
    | '0' :: 'X' :: r => if r ≠ [] ∧ r.all isHexDigit then .fin (hexToNat r : ℚ) else .nan
    | l0 =>
      let sr := parseSign l0
      if sr.2 = "Infinity".data then .inf sr.1
      else
        let ipr := takeDigits sr.2
        let fpr : List Char × List Char :=
          match ipr.2 with
          | '.' :: rf => takeDigits rf
          | _ => ([], ipr.2)
        if ipr.1 = [] ∧ fpr.1 = [] then .nan
        else
          let tail := fpr.2
          let eok : Bool × ℤ :=
            match tail with
            | [] => (true, 0)
            | 'e' :: r => let sr2 := parseSign r
                          let dr := takeDigits sr2.2
                          if dr.1 ≠ [] ∧ dr.2 = [] then
                            (true, if sr2.1 then -(digitsToNat dr.1 : ℤ) else (digitsToNat dr.1 : ℤ))
                          else (false, 0)
            | 'E' :: r => let sr2 := parseSign r
                          let dr := takeDigits sr2.2
                          if dr.1 ≠ [] ∧ dr.2 = [] then
                            (true, if sr2.1 then -(digitsToNat dr.1 : ℤ) else (digitsToNat dr.1 : ℤ))
                          else (false, 0)
            | _ => (false, 0)
          if eok.1 then
            let mant : ℚ := (digitsToNat ipr.1 : ℚ) + (digitsToNat fpr.1 : ℚ) / (10 : ℚ) ^ fpr.1.length
            let v : ℚ := mant * (10 : ℚ) ^ eok.2
            .fin (if sr.1 then -v else v)
          else .nan

/-- ToNumber of a value. -/
def jsToNumber : JSValue → NumVal
  | .undefined => .nan
  | .null => .fin 0
  | .bool b => .fin (if b then 1 else 0)
  | .num q => .fin q
  | .nan => .nan
  | .inf n => .inf n
  | .str s => strToNumber s
  | .fn _ => .nan
  | .arr xs => strToNumber (jsToStringV (.arr xs))

/-- The global isNaN: ToNumber then NaN test. -/
def jsGlobalIsNaN (v : JSValue) : Bool :=
  match jsToNumber v with
  | .nan => true
  | _ => false

/-- ToUint32: truncate toward zero and reduce modulo 2 ^ 32 (NaN and the
infinities map to 0). -/
def toUint32 (v : JSValue) : Nat :=
  match jsToNumber v with
  | .nan => 0
  | .inf _ => 0
  | .fin q => (Int.emod (ratTrunc q) (2 ^ 32)).toNat

/-- Reinterpret an unsigned 32-bit value as a signed one. -/
def int32OfUint32 (n : Nat) : ℤ :=
  if n < 2 ^ 31 then (n : ℤ) else (n : ℤ) - 2 ^ 32

/-- The bitwise OR operator `a | b` on values: ToInt32 both sides, OR the
bit patterns, and return the signed 32-bit result as a number. -/
def jsBitOr (a b : JSValue) : JSValue :=
  .num ((int32OfUint32 (Nat.lor (toUint32 a) (toUint32 b)) : ℤ) : ℚ)

/-- ToPrimitive with number hint: arrays convert through their string
rendering, every other modelled value is already primitive. -/
def jsToPrim (v : JSValue) : JSValue :=
  match v with
  | .arr xs => .str (jsToStringV (.arr xs))
  | v => v

/-- The relational `a > b`: string comparison when both primitives are
strings, otherwise numeric comparison with NaN making it false. -/
def jsGT (a b : JSValue) : Bool :=
  match jsToPrim a, jsToPrim b with
  | .str x, .str y => if y < x then true else false
  | pa, pb =>
      match jsToNumber pa, jsToNumber pb with
      | .nan, _ => false
      | _, .nan => false
      | .inf na, .inf nb => !na && nb
      | .inf na, .fin _ => !na
      | .fin _, .inf nb => nb
      | .fin x, .fin y => if y < x then true else false

/-- The relational `a < b`, which agrees with `b > a` on pure values. -/
def jsLT (a b : JSValue) : Bool := jsGT b a

/-- Property `length` of a value: defined for strings and arrays,
`undefined` otherwise. -/
def jsLength : JSValue → JSValue
  | .str s => .num (s.length : ℚ)
  | .arr xs => .num (xs.length : ℚ)
  | _ => .undefined

/-- Error text thrown by the type switch of parseValue for an
unrecognized type token (apiVerifier.js line 137). -/
def invalidTypeMsg (type : String) : String :=
  "Invalid type defined for parameter: " ++ type

/-- Error text for calling `.split` on a non-string value. -/
def splitTypeErrorMsg : String := "TypeError: value.split is not a function"

/-- Truthy boolean tokens of the boolean case of parseValue. -/
def boolTrueTokens : List String := ["true", "t", "yes", "y", "1"]

/-- Falsy boolean tokens of the boolean case of parseValue. -/
def boolFalseTokens : List String := ["false", "f", "no", "n", "0"]

/-- Switch of the boolean case on the trimmed lowercased string. -/
def boolTokenLookup (t : String) : JSValue :=
  if t ∈ boolTrueTokens then .bool true
  else if t ∈ boolFalseTokens then .bool false
  else .undefined

/-- NaN result of a numeric parse becomes `undefined`
(`isNaN(value) && (value = undefined)`). -/
def undefIfNaN (v : JSValue) : JSValue :=
  if v = .nan then .undefined else v

/-- parseFloat applied to a value.  Finite numbers and infinities
round-trip through their string rendering in JavaScript, so they are
returned unchanged; everything else converts through ToString. -/
def jsParseFloat (v : JSValue) : JSValue :=
  match v with
  | .num q => .num q
  | .inf n => .inf n
  | v => parseFloatStr (jsToStringV v)

/-- parseInt applied to a value, through ToString. -/
def jsParseInt (v : JSValue) : JSValue :=
  parseIntStr (jsToStringV v)

/-- Accumulating split of a character list on commas. -/
def splitCommaAux : List Char → List Char → List String
  | [], acc => [String.mk acc.reverse]
  | ',' :: r, acc => String.mk acc.reverse :: splitCommaAux r []
  | c :: r, acc => splitCommaAux r (c :: acc)

/-- The comma split `value.split(&#39;,&#39;)` on a string. -/
def splitCommaJS (s : String) : List String := splitCommaAux s.data []

instance {ε α : Type} [DecidableEq ε] [DecidableEq α] : DecidableEq (Except ε α)
  | .ok a, .ok b => if h : a = b then isTrue (by rw [h]) else isFalse (by simp [h])
  | .error a, .error b => if h : a = b then isTrue (by rw [h]) else isFalse (by simp [h])
  | .ok _, .error _ => isFalse (fun h => Except.noConfusion h)
  | .error _, .ok _ => isFalse (fun h => Except.noConfusion h)

/-- Scalar type switch of parseValue (apiVerifier.js lines 110-138): the
cases `*`/`any`/`string`, `bool`/`boolean`, `number`/`float`/`double`,
`integer`/`short`, and the throwing default case. -/
def scalarSwitch (type : String) (value : JSValue) : Except String JSValue :=
  if type = "*" ∨ type = "any" ∨ type = "string" then
    .ok (match value with
         | .str s => if s = "" then .undefined else .str s
         | _ => .undefined)
  else if type = "bool" ∨ type = "boolean" then
    .ok (match value with
         | .bool b => .bool b
         | .str s => boolTokenLookup (jsLowerTrim s)
         | _ => .undefined)
  else if type = "number" ∨ type = "float" ∨ type = "double" then
    .ok (undefIfNaN (jsParseFloat value))
  else if type = "integer" ∨ type = "short" then
    .ok (undefIfNaN (jsParseInt value))
  else
    .error (invalidTypeMsg type)

/-- Scalar coercion of each comma-separated part.  A part is a string and
the recursive call passes `array = false`, so the source call
`parseValue(type, entry, false)` lands in the scalar switch; the lemma
`parseValue_str_false` below checks this inlining is exact. -/
def parseSplit (type : String) : List String → Except String (List JSValue)
  | [] => .ok []
  | p :: ps => do
      let v ← scalarSwitch type (.str p)
      let vs ← parseSplit type ps
      pure (v :: vs)

mutual

/-- The value coercer parseValue (apiVerifier.js lines 104-139): an array
maps element-wise with `array = false`; a truthy scalar with the array
flag splits on commas when it is a string and throws otherwise; any other
value goes through the scalar type switch. -/
def parseValue (type : String) (value : JSValue) (array : Bool) : Except String JSValue :=
  match value with
  | .arr xs => (parseValueList type xs).map JSValue.arr
  | v =>
      if jsTruthy v && array then
        match v with
        | .str s => (parseSplit type (splitCommaJS s)).map JSValue.arr
        | _ => .error splitTypeErrorMsg
      else
        scalarSwitch type v

/-- Element-wise coercion of an array value. -/
def parseValueList (type : String) : List JSValue → Except String (List JSValue)
  | [] => .ok []
  | x :: xs => do
      let y ← parseValue type x false
      let ys ← parseValueList type xs
      pure (y :: ys)

end

/-- Coercion of a string part with the array flag off reduces to the
scalar switch, so `parseSplit` matches the source recursion exactly. -/
theorem parseValue_str_false (type : String) (p : String) :
    parseValue type (.str p) false = scalarSwitch type (.str p) := by
  by_cases h : p = "" <;> simp [parseValue, jsTruthy, h]

/-- Word character class of the regex `\w`: ASCII letters, digits and the
underscore. -/
def isWordChar (c : Char) : Bool := c.isAlphanum || c == '_'

/-- Groups produced by a successful match of the parameter pattern
`(\w+)(\[])?(\(([^)]*)\))?`: the type word, whether the bracket pair was
present, and the content of the parenthesized group when it matched. -/
structure RegexMatch where
  word : List Char
  brackets : Bool
  paren : Option (List Char)
  deriving DecidableEq, Repr

/-- Optional third group `(\\(([^)]*)\\))?` tried at a position: a literal
opening parenthesis, a greedy run of non-closing-parenthesis characters,
and the required closing parenthesis; the group matches nothing when the
closing parenthesis is missing. -/
def matchParen : List Char → Option (List Char)
  | '(' :: t =>
      (match t.drop ((t.takeWhile (fun c => !(c == ')'))).length) with
       | ')' :: _ => some (t.takeWhile (fun c => !(c == ')')))
       | _ => none)
  | _ => none

/-- Optional second group `(\\[])?` tried after the word run, followed by
the third group. -/
def matchBrackets (w : List Char) : List Char → Option RegexMatch
  | '[' :: ']' :: t => some ⟨w, true, matchParen t⟩
  | r => some ⟨w, false, matchParen r⟩

/-- Attempt of the parameter pattern anchored at the head of the list:
a greedy nonempty word run, then the optional groups.  With both groups
after `\\w+` optional, the attempt succeeds exactly when a word character
starts the list, and no backtracking into the word run can occur. -/
def matchParamAt (s : List Char) : Option RegexMatch :=
  if (s.takeWhile isWordChar).isEmpty then none
  else matchBrackets (s.takeWhile isWordChar) (s.drop (s.takeWhile isWordChar).length)

/-- Leftmost match of the parameter pattern, as String.prototype.match
finds it: try each start position from the left. -/
def findParamMatch : List Char → Option RegexMatch
  | [] => none
  | c :: rest =>
      match matchParamAt (c :: rest) with
      | some m => some m
      | none => findParamMatch rest

/-- Normalized parameter definition (the ParamDef objects built by
parseParam and consumed by the pipeline).  Hook fields hold arbitrary
values, as in the source where absent hooks read as `undefined`. -/
structure ParamDefJS where
  type : String := ""
  default : JSValue := .undefined
  required : Bool := false
  array : Bool := false
  min : JSValue := .undefined
  max : JSValue := .undefined
  validate : JSValue := .undefined
  error : JSValue := .undefined
  success : JSValue := .undefined
  deriving DecidableEq, Repr

/-- String form of parseParam (apiVerifier.js lines 74-81): match the
pattern, lowercase the trimmed type word, read arrayness from the bracket
group, derive requiredness from the absence of the parenthesized group,
and run the captured default literal through the value coercer. -/
def parseParamStr (s : String) : Except String ParamDefJS :=
  match findParamMatch s.data with
  | none => .error "TypeError: cannot read properties of null"
  | some m => do
      let type := String.mk (jsToLowerL (jsTrimL m.word))
      let array := m.brackets
      let required := m.paren.isNone
      let dflt ← parseValue type
        (match m.paren with
         | none => JSValue.undefined
         | some c => JSValue.str (String.mk c)) array
      pure { type := type, default := dflt, required := required, array := array }

/-- Object form input of parseParam: a structured specification whose
`required`, `default` and `array` fields may hold arbitrary values. -/
structure ParamObj where
  type : String := ""
  required : JSValue := .undefined
  default : JSValue := .undefined
  array : JSValue := .undefined
  min : JSValue := .undefined
  max : JSValue := .undefined
  validate : JSValue := .undefined
  error : JSValue := .undefined
  success : JSValue := .undefined
  deriving DecidableEq, Repr

/-- Spellings of `required` that the object branch switches to `false`
(strict equality cases `0`, the six string tokens, and `false`). -/
def requiredFalsyStrings : List String := ["FALSE", "false", "F", "f", "no", "n"]

/-- Normalization of the `required` field of an object specification:
the listed falsy spellings give `false`; every other value makes the
parameter required exactly when no default is present. -/
def objRequired (r : JSValue) (dflt : JSValue) : Bool :=
  match r with
  | .num q => if q = 0 then false else jsIsUndefined dflt
  | .str s => if s ∈ requiredFalsyStrings then false else jsIsUndefined dflt
  | .bool b => if b then jsIsUndefined dflt else false
  | _ => jsIsUndefined dflt

/-- Object branch of parseParam (apiVerifier.js lines 82-93). -/
def parseParamObj (o : ParamObj) : ParamDefJS :=
  { type := o.type
    default := if jsIsUndefined o.default then .undefined else o.default
    required := objRequired o.required o.default
    array := jsTruthy o.array
    min := o.min
    max := o.max
    validate := o.validate
    error := o.error
    success := o.success }

/-- Input shapes of parseParam: a grammar string, a structured object, or
anything else (which the source rejects with an incompatibility error). -/
inductive ParamSpec where
  | strSpec (s : String)
  | objSpec (o : ParamObj)
  | badSpec
  deriving DecidableEq, Repr

/-- The parameter specification parser parseParam
(apiVerifier.js lines 73-95). -/
def parseParam : ParamSpec → Except String ParamDefJS
  | .strSpec s => parseParamStr s
  | .objSpec o => .ok (parseParamObj o)
  | .badSpec => .error "Given parameter is incompatible"

/-- Hook back-filling applied to each parsed definition during endpoint
configuration (apiVerifier.js lines 53-55).  The `error` line uses the
bitwise OR of the own hook with the endpoint hook, exactly as written in
the source, before falling back to the process-wide default. -/
def configureHooks (apiError apiValidate apiSuccess ctxError ctxValidate ctxSuccess : JSValue)
    (parsed : ParamDefJS) : ParamDefJS :=
  { parsed with
    error := jsOr (jsBitOr parsed.error apiError) ctxError
    validate := jsOr (jsOr parsed.validate apiValidate) ctxValidate
    success := jsOr (jsOr parsed.success apiSuccess) ctxSuccess }

/-- Parameter-map normalization loop of configure
(apiVerifier.js lines 51-57): each entry is parsed and its hooks are
back-filled. -/
def configureParams (apiError apiValidate apiSuccess ctxError ctxValidate ctxSuccess : JSValue) :
    List (String × ParamSpec) → Except String (List (String × ParamDefJS))
  | [] => .ok []
  | (name, spec) :: rest => do
      let parsed ← parseParam spec
      let rest2 ← configureParams apiError apiValidate apiSuccess ctxError ctxValidate ctxSuccess rest
      pure ((name, configureHooks apiError apiValidate apiSuccess ctxError ctxValidate ctxSuccess parsed) :: rest2)

/-- Association list lookup; `none` models a property read as undefined. -/
def amGet {α : Type} : List (String × α) → String → Option α
  | [], _ => none
  | (k1, v) :: r, k => if k1 = k then some v else amGet r k

/-- Property write: replace the first binding of the key, or append. -/
def amSet {α : Type} : List (String × α) → String → α → List (String × α)
  | [], k, v => [(k, v)]
  | (k1, v1) :: r, k, v => if k1 = k then (k, v) :: r else (k1, v1) :: amSet r k v

/-- A JavaScript object holding request or parameter values. -/
abbrev JSMap : Type := List (String × JSValue)

/-- Property read defaulting to undefined, as `params[name]` reads. -/
def jsGet (m : JSMap) (k : String) : JSValue := (amGet m k).getD .undefined

/-- Endpoint configuration as the verifier consumes it: the normalized
parameter map, the ordered request sources, the request property that
receives the final map, and the endpoint hooks. -/
structure EndpointCfg where
  params : List (String × ParamDefJS)
  paramOrder : List String
  paramMap : String := "args"
  error : JSValue := .undefined
  success : JSValue := .undefined

/-- The request, exposing one optional value map per source name;
`none` models a source property that is absent (falsy) on the request. -/
structure Request where
  sources : String → Option JSMap

/-- Inner loop of getParams over the properties of one source
(apiVerifier.js lines 196-200): a property is coerced and recorded when
it is still undefined in the accumulator and is a declared parameter. -/
def getFromSource (cfgParams : List (String × ParamDefJS)) : JSMap → JSMap → Except String JSMap
  | [], params => .ok params
  | (name, raw) :: rest, params =>
      match amGet cfgParams name with
      | some pc =>
          if jsGet params name = .undefined then do
            let v ← parseValue pc.type raw pc.array
            getFromSource cfgParams rest (amSet params name v)
          else getFromSource cfgParams rest params
      | none => getFromSource cfgParams rest params

/-- Outer loop of getParams over the configured source order
(apiVerifier.js lines 194-202); absent sources are skipped. -/
def getParamsAux (config : EndpointCfg) (req : Request) : List String → JSMap → Except String JSMap
  | [], params => .ok params
  | prop :: rest, params =>
      match req.sources prop with
      | some src => do
          let params2 ← getFromSource config.params src params
          getParamsAux config req rest params2
      | none => getParamsAux config req rest params

/-- The extraction step getParams (apiVerifier.js lines 192-204). -/
def getParams (config : EndpointCfg) (req : Request) : Except String JSMap :=
  getParamsAux config req config.paramOrder []

/-- Error record accumulated by checkParams for one parameter; the
optional bound fields model the keys present on the object literals. -/
structure MissingInfo where
  type : String
  error : JSValue
  min : Option JSValue := none
  max : Option JSValue := none
  deriving DecidableEq, Repr

/-- The error mapping returned by checkParams. -/
abbrev ErrMap : Type := List (String × MissingInfo)

/-- Environment resolving validator function identifiers to behaviors;
a validator receives the value, the parameter name, and its definition. -/
def ValEnv : Type := Nat → JSValue → String → ParamDefJS → JSValue

/-- Invocation of a configured validate hook; calling a truthy non
function value throws, as in JavaScript. -/
def callValidate (env : ValEnv) (v : JSValue) (value : JSValue) (name : String)
    (pc : ParamDefJS) : Except String JSValue :=
  match v with
  | .fn id => .ok (env id value name pc)
  | _ => .error "TypeError: paramConfig.validate is not a function"

/-- Empty array test `Array.isArray(value) && !value.length`. -/
def isEmptyArray : JSValue → Bool
  | .arr [] => true
  | _ => false

/-- Bounds checks for one (element) value of a parameter
(apiVerifier.js lines 239-285): only truthy values are checked, the max
check precedes the min check, and only the `string` and `number` types
compare (length against the bound, and value against the bound). -/
def boundsCheckOne (name : String) (pc : ParamDefJS) (v : JSValue) (errors : ErrMap) : ErrMap :=
  if jsTruthy v then
    let errors :=
      if !(jsGlobalIsNaN pc.max) then
        if pc.type = "string" then
          (if jsGT (jsLength v) pc.max then
            amSet errors name ⟨pc.type, .str "value exceeds max value", none, some pc.max⟩
           else errors)
        else if pc.type = "number" then
          (if jsGT v pc.max then
            amSet errors name ⟨pc.type, .str "value exceeds max value", none, some pc.max⟩
           else errors)
        else errors
      else errors
    if !(jsGlobalIsNaN pc.min) then
      if pc.type = "string" then
        (if jsLT (jsLength v) pc.min then
          amSet errors name ⟨pc.type, .str "value below min value", some pc.min, none⟩
         else errors)
      else if pc.type = "number" then
        (if jsLT v pc.min then
          amSet errors name ⟨pc.type, .str "value below min value", some pc.min, none⟩
         else errors)
      else errors
    else errors
  else errors

/-- Required check of one parameter (apiVerifier.js lines 232-237): a
required parameter whose value is undefined or an empty array records a
`not set` error. -/
def requiredCheck (params : JSMap) (errors : ErrMap) (name : String) (pc : ParamDefJS) : ErrMap :=
  if pc.required && (jsIsUndefined (jsGet params name) || isEmptyArray (jsGet params name)) then
    amSet errors name ⟨pc.type, .str "not set", none, none⟩
  else errors

/-- The element list the bounds loop iterates: the array elements or the
scalar value as a singleton (apiVerifier.js line 238). -/
def valuesOf : JSValue → List JSValue
  | .arr xs => xs
  | v => [v]

/-- Checks for one declared parameter (apiVerifier.js lines 223-286):
a truthy validate hook is called and short-circuits every built-in check
(`continue`); otherwise the required check runs, and each element of the
value (or the scalar value itself) goes through the bounds checks. -/
def checkOne (env : ValEnv) (params : JSMap) (errors : ErrMap) (name : String)
    (pc : ParamDefJS) : Except String ErrMap :=
  if jsTruthy pc.validate then do
    let err ← callValidate env pc.validate (jsGet params name) name pc
    pure (if jsTruthy err then amSet errors name ⟨pc.type, err, none, none⟩ else errors)
  else
    .ok ((valuesOf (jsGet params name)).foldl (fun e v => boundsCheckOne name pc v e)
          (requiredCheck params errors name pc))

/-- Iteration of checkParams over the declared parameters. -/
def checkParamsAux (env : ValEnv) (params : JSMap) :
    List (String × ParamDefJS) → ErrMap → Except String ErrMap
  | [], errors => .ok errors
  | (name, pc) :: rest, errors => do
      let errors2 ← checkOne env params errors name pc
      checkParamsAux env params rest errors2

/-- The validation step checkParams (apiVerifier.js lines 220-289). -/
def checkParams (env : ValEnv) (cfgParams : List (String × ParamDefJS)) (params : JSMap) :
    Except String ErrMap :=
  checkParamsAux env params cfgParams []

/-- The default-filling step fillParams (apiVerifier.js lines 297-304):
every declared parameter still undefined in the map receives its
definition default. -/
def fillParams : List (String × ParamDefJS) → JSMap → JSMap
  | [], params => params
  | (name, pc) :: rest, params =>
      fillParams rest
        (if jsGet params name = .undefined then amSet params name pc.default else params)

/-- Payload handed to a configured error hook. -/
inductive ErrPayload where
  | thrown (msg : String)
  | missing (errors : ErrMap)
  deriving DecidableEq

/-- Body handed to the responder: nothing (a null body) or the structured
error object with its message and parameter error mapping. -/
inductive RespBody where
  | empty
  | errObj (error : String) (params : ErrMap)
  deriving DecidableEq

/-- Terminal action taken by verify on a request. -/
inductive VerifyOutcome where
  | next
  | errorHook (hook : JSValue) (payload : ErrPayload)
  | respond (body : RespBody) (status : Nat)
  | successHook (hook : JSValue) (mapKey : String) (params : JSMap)
  | accept (mapKey : String) (params : JSMap)
  | uncaught (msg : String)
  deriving DecidableEq

/-- The middleware verify (apiVerifier.js lines 149-184): pass through
without a configuration; route an extraction failure to the error hook or
a 422 response carrying the message; route validation errors to the error
hook, or to a 422 response whose body carries the error mapping only in
development mode; otherwise fill defaults, attach the map, and continue
through the success hook when one is configured.  An exception escaping
checkParams is not caught by the source and surfaces as `uncaught`. -/
def verify (env : ValEnv) (cfgLookup : Option EndpointCfg) (req : Request)
    (nodeEnv : Option String) : VerifyOutcome :=
  match cfgLookup with
  | none => .next
  | some config =>
      match getParams config req with
      | .error e =>
          if jsTruthy config.error then .errorHook config.error (.thrown e)
          else .respond (.errObj e []) 422
      | .ok params =>
          match checkParams env config.params params with
          | .error e => .uncaught e
          | .ok missing =>
              if missing.length ≠ 0 then
                if jsTruthy config.error then .errorHook config.error (.missing missing)
                else if nodeEnv = some "development" then
                  .respond (.errObj "Required parameters are missing" missing) 422
                else .respond .empty 422
              else
                let filled := fillParams config.params params
                if jsTruthy config.success then .successHook config.success config.paramMap filled
                else .accept config.paramMap filled

/-- Type tokens accepted by the switch of parseValue. -/
def recognizedTypeTokens : List String :=
  ["*", "any", "string", "bool", "boolean", "number", "float", "double", "integer", "short"]

/-- Array test `Array.isArray`. -/
def isArrB : JSValue → Bool
  | .arr _ => true
  | _ => false

/-- Coercion of a non-array value with the array flag off goes straight
to the scalar type switch. -/
theorem parseValue_nonarr_false (t : String) (v : JSValue) (hv : isArrB v = false) :
    parseValue t v false = scalarSwitch t v := by
  cases v with
  | arr xs => exact absurd hv (by simp [isArrB])
  | str s => exact parseValue_str_false t s
  | _ => simp [parseValue]

/-- The scalar switch throws its invalid-type error on every type token
outside the recognized list. -/
theorem scalarSwitch_unrecognized (t : String) (ht : t ∉ recognizedTypeTokens) (v : JSValue) :
    scalarSwitch t v = .error (invalidTypeMsg t) := by
  simp only [recognizedTypeTokens, List.mem_cons, List.not_mem_nil, or_false, not_or] at ht
  obtain ⟨h1, h2, h3, h4, h5, h6, h7, h8, h9, h10⟩ := ht
  simp [scalarSwitch, h1, h2, h3, h4, h5, h6, h7, h8, h9, h10]

/-- The scalar switch succeeds on every recognized type token. -/
theorem scalarSwitch_recognized_ok (t : String) (ht : t ∈ recognizedTypeTokens) (v : JSValue) :
    ∃ r, scalarSwitch t v = .ok r := by
  simp only [recognizedTypeTokens, List.mem_cons, List.not_mem_nil, or_false] at ht
  rcases ht with h | h | h | h | h | h | h | h | h | h <;> subst h <;> exact ⟨_, rfl⟩

/-- Splitting coercion succeeds whenever the scalar switch does. -/
theorem parseSplit_ok (t : String) (hok : ∀ w, ∃ r, scalarSwitch t w = .ok r) :
    ∀ ps, ∃ rs, parseSplit t ps = .ok rs := by
  intro ps
  induction ps with
  | nil => exact ⟨[], rfl⟩
  | cons p ps ih =>
      obtain ⟨r, hr⟩ := hok (.str p)
      obtain ⟨rs, hrs⟩ := ih
      refine ⟨r :: rs, ?_⟩
      simp only [parseSplit]
      rw [hr, hrs]
      rfl

/-- Splitting coercion only depends on the type token through the scalar
switch. -/
theorem parseSplit_congr (t1 t2 : String) (h : ∀ w, scalarSwitch t1 w = scalarSwitch t2 w) :
    ∀ ps, parseSplit t1 ps = parseSplit t2 ps := by
  intro ps
  induction ps with
  | nil => rfl
  | cons p ps ih => simp [parseSplit, h (.str p), ih]

mutual

/-- Two type tokens with the same scalar switch coerce every value the
same way. -/
theorem parseValue_congr (t1 t2 : String) (h : ∀ w, scalarSwitch t1 w = scalarSwitch t2 w) :
    ∀ (v : JSValue) (a : Bool), parseValue t1 v a = parseValue t2 v a
  | .arr xs, _ => by
      have hl := parseValueList_congr t1 t2 h xs
      simp [parseValue, hl]
  | .undefined, a => by simp [parseValue, h]
  | .null, a => by simp [parseValue, h]
  | .bool b, a => by simp [parseValue, h]
  | .num q, a => by simp [parseValue, h]
  | .nan, a => by simp [parseValue, h]
  | .inf n, a => by simp [parseValue, h]
  | .fn i, a => by simp [parseValue, h]
  | .str s, a => by
      have hs := parseSplit_congr t1 t2 h (splitCommaJS s)
      simp [parseValue, h, hs]

/-- List version of the previous congruence. -/
theorem parseValueList_congr (t1 t2 : String) (h : ∀ w, scalarSwitch t1 w = scalarSwitch t2 w) :
    ∀ xs : List JSValue, parseValueList t1 xs = parseValueList t2 xs
  | [] => rfl
  | x :: xs => by
      have h1 := parseValue_congr t1 t2 h x false
      have h2 := parseValueList_congr t1 t2 h xs
      simp [parseValueList, h1, h2]

end

mutual

/-- With a type token whose scalar switch always succeeds, the only error
the coercer can produce is the split TypeError. -/
theorem parseValue_err_split (t : String) (hok : ∀ w, ∃ r, scalarSwitch t w = .ok r) :
    ∀ (v : JSValue) (a : Bool) (e : String), parseValue t v a = .error e → e = splitTypeErrorMsg
  | .arr xs, a, e => by
      intro hpe
      have hrw : parseValue t (.arr xs) a = (parseValueList t xs).map JSValue.arr := rfl
      rw [hrw] at hpe
      cases hl : parseValueList t xs with
      | ok rs => rw [hl] at hpe; simp [Except.map] at hpe
      | error e2 =>
          rw [hl] at hpe
          simp only [Except.map] at hpe
          injection hpe with h2
          exact h2 ▸ parseValueList_err_split t hok xs e2 hl
  | .str s, a, e => by
      intro hpe
      have hrw : parseValue t (.str s) a
          = if jsTruthy (.str s) && a then (parseSplit t (splitCommaJS s)).map JSValue.arr
            else scalarSwitch t (.str s) := rfl
      rw [hrw] at hpe
      split at hpe
      · obtain ⟨rs, hrs⟩ := parseSplit_ok t hok (splitCommaJS s)
        rw [hrs] at hpe
        simp [Except.map] at hpe
      · obtain ⟨r, hr2⟩ := hok (.str s)
        rw [hr2] at hpe
        simp at hpe
  | .undefined, a, e => by
      intro hpe
      have hrw : parseValue t (.undefined) a
          = if jsTruthy (.undefined) && a then Except.error splitTypeErrorMsg
            else scalarSwitch t (.undefined) := rfl
      rw [hrw] at hpe
      split at hpe
      · injection hpe with h2
        exact h2.symm
      · obtain ⟨r, hr2⟩ := hok (.undefined)
        rw [hr2] at hpe
        simp at hpe
  | .null, a, e => by
      intro hpe
      have hrw : parseValue t (.null) a
          = if jsTruthy (.null) && a then Except.error splitTypeErrorMsg
            else scalarSwitch t (.null) := rfl
      rw [hrw] at hpe
      split at hpe
      · injection hpe with h2
        exact h2.symm
      · obtain ⟨r, hr2⟩ := hok (.null)
        rw [hr2] at hpe
        simp at hpe
  | .bool b, a, e => by
      intro hpe
      have hrw : parseValue t (.bool b) a
          = if jsTruthy (.bool b) && a then Except.error splitTypeErrorMsg
            else scalarSwitch t (.bool b) := rfl
      rw [hrw] at hpe
      split at hpe
      · injection hpe with h2
        exact h2.symm
      · obtain ⟨r, hr2⟩ := hok (.bool b)
        rw [hr2] at hpe
        simp at hpe
  | .num q, a, e => by
      intro hpe
      have hrw : parseValue t (.num q) a
          = if jsTruthy (.num q) && a then Except.error splitTypeErrorMsg
            else scalarSwitch t (.num q) := rfl
      rw [hrw] at hpe
      split at hpe
      · injection hpe with h2
        exact h2.symm
      · obtain ⟨r, hr2⟩ := hok (.num q)
        rw [hr2] at hpe
        simp at hpe
  | .nan, a, e => by
      intro hpe
      have hrw : parseValue t (.nan) a
          = if jsTruthy (.nan) && a then Except.error splitTypeErrorMsg
            else scalarSwitch t (.nan) := rfl
      rw [hrw] at hpe
      split at hpe
      · injection hpe with h2
        exact h2.symm
      · obtain ⟨r, hr2⟩ := hok (.nan)
        rw [hr2] at hpe
        simp at hpe
  | .inf n, a, e => by
      intro hpe
      have hrw : parseValue t (.inf n) a
          = if jsTruthy (.inf n) && a then Except.error splitTypeErrorMsg
            else scalarSwitch t (.inf n) := rfl
      rw [hrw] at hpe
      split at hpe
      · injection hpe with h2
        exact h2.symm
      · obtain ⟨r, hr2⟩ := hok (.inf n)
        rw [hr2] at hpe
        simp at hpe
  | .fn i, a, e => by
      intro hpe
      have hrw : parseValue t (.fn i) a
          = if jsTruthy (.fn i) && a then Except.error splitTypeErrorMsg
            else scalarSwitch t (.fn i) := rfl
      rw [hrw] at hpe
      split at hpe
      · injection hpe with h2
        exact h2.symm
      · obtain ⟨r, hr2⟩ := hok (.fn i)
        rw [hr2] at hpe
        simp at hpe

/-- List version of the previous error classification. -/
theorem parseValueList_err_split (t : String) (hok : ∀ w, ∃ r, scalarSwitch t w = .ok r) :
    ∀ (xs : List JSValue) (e : String), parseValueList t xs = .error e → e = splitTypeErrorMsg
  | [], e => by intro hpe; cases hpe
  | x :: xs, e => by
      intro hpe
      cases hx : parseValue t x false with
      | error e1 =>
          rw [show parseValueList t (x :: xs)
                = (parseValue t x false) >>= (fun y =>
                    (parseValueList t xs) >>= (fun ys => pure (y :: ys))) from rfl, hx] at hpe
          have h2 : e1 = e := by
            injection (show (Except.error e1 : Except String (List JSValue)) = .error e from hpe)
          exact h2 ▸ parseValue_err_split t hok x false e1 hx
      | ok y =>
          rw [show parseValueList t (x :: xs)
                = (parseValue t x false) >>= (fun y =>
                    (parseValueList t xs) >>= (fun ys => pure (y :: ys))) from rfl, hx] at hpe
          cases hxs : parseValueList t xs with
          | error e2 =>
              rw [hxs] at hpe
              have h2 : e2 = e := by
                injection (show (Except.error e2 : Except String (List JSValue)) = .error e from hpe)
              exact h2 ▸ parseValueList_err_split t hok xs e2 hxs
          | ok ys =>
              rw [hxs] at hpe
              exact absurd (show (Except.ok (y :: ys) : Except String (List JSValue)) = .error e from hpe)
                (by simp)

end

/-- Coercion of the value undefined can only succeed with the result
undefined, whatever the type token and array flag. -/
theorem parseValue_undefined_ok (t : String) (a : Bool) (v : JSValue)
    (h : parseValue t .undefined a = .ok v) : v = .undefined := by
  rw [show parseValue t .undefined a = scalarSwitch t .undefined from rfl] at h
  unfold scalarSwitch at h
  split_ifs at h
  · injection h with h5
    exact h5.symm
  · injection h with h5
    exact h5.symm
  · have hc : undefIfNaN (jsParseFloat JSValue.undefined) = JSValue.undefined := by decide
    injection h with h5
    exact h5 ▸ hc
  · have hc : undefIfNaN (jsParseInt JSValue.undefined) = JSValue.undefined := by decide
    injection h with h5
    exact h5 ▸ hc

/-- Shape of a successful string parse in terms of the regex match: the
returned definition carries the lowercased trimmed word as type, the
bracket flag as arrayness, requiredness iff the parenthesized group is
absent, and a default obtained by coercing the captured group. -/
theorem parseParamStr_ok (s : String) (m : RegexMatch) (hm : findParamMatch s.data = some m)
    (d : ParamDefJS) (h : parseParamStr s = .ok d) :
    d.type = String.mk (jsToLowerL (jsTrimL m.word)) ∧ d.array = m.brackets ∧
    d.required = m.paren.isNone ∧
    parseValue d.type
      (match m.paren with
       | none => JSValue.undefined
       | some c => JSValue.str (String.mk c)) m.brackets = .ok d.default ∧
    d.min = .undefined ∧ d.max = .undefined ∧ d.validate = .undefined ∧
    d.error = .undefined ∧ d.success = .undefined := by
  have key : parseParamStr s = (do
      let dflt ← parseValue (String.mk (jsToLowerL (jsTrimL m.word)))
          (match m.paren with
           | none => JSValue.undefined
           | some c => JSValue.str (String.mk c)) m.brackets
      pure { type := String.mk (jsToLowerL (jsTrimL m.word)), default := dflt,
             required := m.paren.isNone, array := m.brackets }) := by
    unfold parseParamStr
    rw [hm]
  rw [key] at h
  cases hpv : parseValue (String.mk (jsToLowerL (jsTrimL m.word)))
      (match m.paren with
       | none => JSValue.undefined
       | some c => JSValue.str (String.mk c)) m.brackets with
  | error e =>
      rw [hpv] at h
      exact absurd (show (Except.error e : Except String ParamDefJS) = .ok d from h) (by simp)
  | ok dflt =>
      rw [hpv] at h
      injection h with hd
      subst hd
      exact ⟨rfl, rfl, rfl, hpv, rfl, rfl, rfl, rfl, rfl⟩

/-- C3: for every input accepted by parseParam, the returned definition
satisfies the invariant that a required parameter has no default:
required = true implies default = undefined. -/
theorem parseParam_required_implies_undefined_default :
    ∀ (spec : ParamSpec) (d : ParamDefJS),
      parseParam spec = .ok d → d.required = true → d.default = .undefined := by
  intro spec d h hr
  cases spec with
  | badSpec => cases h
  | objSpec o =>
      injection (show (Except.ok (parseParamObj o) : Except String ParamDefJS) = .ok d from h)
        with hd
      subst hd
      have hreq : objRequired o.required o.default = true := hr
      have hud : jsIsUndefined o.default = true := by
        unfold objRequired at hreq
        cases hor : o.required with
        | num q => rw [hor] at hreq; simp at hreq; exact hreq.2
        | str t => rw [hor] at hreq; simp at hreq; exact hreq.2
        | bool b => rw [hor] at hreq; simp at hreq; exact hreq.2
        | undefined => rw [hor] at hreq; simpa using hreq
        | null => rw [hor] at hreq; simpa using hreq
        | nan => rw [hor] at hreq; simpa using hreq
        | inf n => rw [hor] at hreq; simpa using hreq
        | fn i => rw [hor] at hreq; simpa using hreq
        | arr xs => rw [hor] at hreq; simpa using hreq
      have hdef : o.default = .undefined := by
        cases hod : o.default <;>
          first
          | rfl
          | (rw [hod] at hud; simp [jsIsUndefined] at hud)
      simp [parseParamObj, hdef, jsIsUndefined]
  | strSpec s =>
      have hps : parseParamStr s = .ok d := h
      cases hm : findParamMatch s.data with
      | none =>
          unfold parseParamStr at hps
          rw [hm] at hps
          cases hps
      | some m =>
          obtain ⟨_, harr, hrq, hdf, _⟩ := parseParamStr_ok s m hm d hps
          have hp : m.paren = none := by
            rw [hr] at hrq
            exact (Option.isNone_iff_eq_none.mp hrq.symm)
          rw [hp] at hdf
          exact (parseValue_undefined_ok _ _ _ hdf)

/-- C3 witness. -/
theorem parseParam_required_implies_undefined_default_witness :
    ({ type := "string", default := .undefined, required := true, array := false } :
      ParamDefJS).default = .undefined :=
  parseParam_required_implies_undefined_default (.strSpec "string")
    { type := "string", default := .undefined, required := true, array := false }
    (by decide) rfl

/-- C2: scalar coercion follows the type matrix: for type boolean a
boolean passes through and a string is matched case-insensitively (after
trimming) against the truthy and falsy token sets, anything else giving
undefined; for type number the value parses as floating point and for
integer as integer, NaN becoming undefined; and the four concrete
examples of the specification evaluate as stated. -/
theorem parseValue_scalar_matrix :
    (∀ b : Bool, parseValue "boolean" (.bool b) false = .ok (.bool b))
    ∧ (∀ s : String,
        (jsLowerTrim s ∈ boolTrueTokens → parseValue "boolean" (.str s) false = .ok (.bool true))
        ∧ (jsLowerTrim s ∈ boolFalseTokens → parseValue "boolean" (.str s) false = .ok (.bool false))
        ∧ (jsLowerTrim s ∉ boolTrueTokens → jsLowerTrim s ∉ boolFalseTokens →
            parseValue "boolean" (.str s) false = .ok .undefined))
    ∧ (∀ s : String,
        (parseFloatStr s = .nan → parseValue "number" (.str s) false = .ok .undefined)
        ∧ (parseFloatStr s ≠ .nan → parseValue "number" (.str s) false = .ok (parseFloatStr s)))
    ∧ (∀ s : String,
        (parseIntStr s = .nan → parseValue "integer" (.str s) false = .ok .undefined)
        ∧ (parseIntStr s ≠ .nan → parseValue "integer" (.str s) false = .ok (parseIntStr s)))
    ∧ parseValue "boolean" (.str "YES") false = .ok (.bool true)
    ∧ parseValue "boolean" (.str "maybe") false = .ok .undefined
    ∧ parseValue "integer" (.str "12.9") false = .ok (.num 12)
    ∧ parseValue "number" (.str "abc") false = .ok .undefined := by
  refine ⟨?_, ?_, ?_, ?_, by decide, by decide, by decide, by decide⟩
  · intro b
    rw [parseValue_nonarr_false "boolean" (.bool b) rfl]
    rfl
  · intro s
    have hsw : parseValue "boolean" (.str s) false = .ok (boolTokenLookup (jsLowerTrim s)) :=
      (parseValue_str_false "boolean" s).trans rfl
    refine ⟨fun h => ?_, fun h => ?_, fun h1 h2 => ?_⟩
    · simp only [boolTrueTokens, List.mem_cons, List.not_mem_nil, or_false] at h
      rcases h with h | h | h | h | h <;> rw [hsw, h] <;> rfl
    · simp only [boolFalseTokens, List.mem_cons, List.not_mem_nil, or_false] at h
      rcases h with h | h | h | h | h <;> rw [hsw, h] <;> rfl
    · rw [hsw]
      simp [boolTokenLookup, h1, h2]
  · intro s
    have hsw : parseValue "number" (.str s) false = .ok (undefIfNaN (parseFloatStr s)) :=
      (parseValue_str_false "number" s).trans rfl
    exact ⟨fun h => by rw [hsw, h]; rfl, fun h => by rw [hsw]; simp [undefIfNaN, h]⟩
  · intro s
    have hsw : parseValue "integer" (.str s) false = .ok (undefIfNaN (parseIntStr s)) :=
      (parseValue_str_false "integer" s).trans rfl
    exact ⟨fun h => by rw [hsw, h]; rfl, fun h => by rw [hsw]; simp [undefIfNaN, h]⟩

/-- C2 witness. -/
theorem parseValue_scalar_matrix_witness :
    parseValue "boolean" (.str " True ") false = .ok (.bool true)
    ∧ parseValue "number" (.str "zz") false = .ok .undefined :=
  ⟨(parseValue_scalar_matrix.2.1 " True ").1 (by decide),
   (parseValue_scalar_matrix.2.2.1 "zz").1 (by decide)⟩

/-- C8 counterexample: the token `bool` lies outside the documented set
any, string, boolean, number, integer, yet scalar coercion with it
succeeds instead of failing, refuting the claim that every type outside
the documented set is in the failing class. -/
theorem parseValue_bool_token_succeeds :
    parseValue "bool" (.str "true") false = .ok (.bool true)
    ∧ "bool" ∉ (["any", "string", "boolean", "number", "integer"] : List String) :=
  ⟨by decide, by decide⟩

/-- C8 amended: for every non-array raw value, coercion with a type token
outside the full recognized set (the documented five together with their
synonyms `*`, `bool`, `float`, `double`, `short`) throws the invalid-type
configuration error instead of returning a value. -/
theorem parseValue_unrecognized_type_throws :
    ∀ (t : String) (v : JSValue), t ∉ recognizedTypeTokens → isArrB v = false →
      parseValue t v false = .error (invalidTypeMsg t) := by
  intro t v ht hv
  rw [parseValue_nonarr_false t v hv]
  exact scalarSwitch_unrecognized t ht v

/-- C8 witness. -/
theorem parseValue_unrecognized_type_throws_witness :
    parseValue "date" (.str "2020") false = .error (invalidTypeMsg "date") :=
  parseValue_unrecognized_type_throws "date" (.str "2020") (by decide) rfl

/-- C10: the value coercer accepts the documented synonyms: for every raw
value and array flag, `*` coerces like `any`, `bool` like `boolean`,
`float` and `double` like `number`, `short` like `integer`, and none of
these tokens can produce the invalid-type error. -/
theorem parseValue_type_synonyms :
    (∀ (v : JSValue) (a : Bool), parseValue "*" v a = parseValue "any" v a)
    ∧ (∀ (v : JSValue) (a : Bool), parseValue "bool" v a = parseValue "boolean" v a)
    ∧ (∀ (v : JSValue) (a : Bool), parseValue "float" v a = parseValue "number" v a)
    ∧ (∀ (v : JSValue) (a : Bool), parseValue "double" v a = parseValue "number" v a)
    ∧ (∀ (v : JSValue) (a : Bool), parseValue "short" v a = parseValue "integer" v a)
    ∧ (∀ t, t ∈ (["*", "bool", "float", "double", "short"] : List String) →
        ∀ (v : JSValue) (a : Bool), parseValue t v a ≠ .error (invalidTypeMsg t)) := by
  refine ⟨parseValue_congr "*" "any" (fun w => rfl),
          parseValue_congr "bool" "boolean" (fun w => rfl),
          parseValue_congr "float" "number" (fun w => rfl),
          parseValue_congr "double" "number" (fun w => rfl),
          parseValue_congr "short" "integer" (fun w => rfl),
          ?_⟩
  intro t ht v a hcontra
  have hrec : t ∈ recognizedTypeTokens := by fin_cases ht <;> decide
  have hsplit := parseValue_err_split t (scalarSwitch_recognized_ok t hrec) v a _ hcontra
  fin_cases ht <;> exact absurd hsplit (by decide)

/-- C10 witness. -/
theorem parseValue_type_synonyms_witness :
    parseValue "bool" (.str "yes") false = parseValue "boolean" (.str "yes") false
    ∧ parseValue "short" (.str "7") false ≠ .error (invalidTypeMsg "short") :=
  ⟨parseValue_type_synonyms.2.1 (.str "yes") false,
   parseValue_type_synonyms.2.2.2.2.2 "short" (by decide) (.str "7") false⟩

/-- C4: the endpoint configuration loop back-fills the error hook with
the process-wide default even when the endpoint supplies its own error
option: line 53 of the source computes the hook with a bitwise OR
(`parsed.error | api.error`), which is 0 on function or undefined hooks,
so `|| context.configuration.error` always wins.  Evaluated at a
parameter with no own error hook, an endpoint hook `fn 1`, and a process
default `fn 2`: the parameter receives `fn 2`, not the endpoint hook. -/
theorem configureParams_error_hook_ignores_endpoint :
    configureParams (.fn 1) .undefined .undefined (.fn 2) .undefined .undefined
        [("x", .strSpec "string")]
      = .ok [("x", { type := "string", default := .undefined, required := true, array := false,
                     min := .undefined, max := .undefined, validate := .undefined,
                     error := .fn 2, success := .undefined })]
    ∧ JSValue.fn 2 ≠ JSValue.fn 1 :=
  ⟨by decide, by decide⟩

/-- Characters of a compact grammar string: a type word, an optional
bracket pair, and an optional parenthesized default literal. -/
def mkCompactL (tok : List Char) (arr : Bool) (ds : Option (List Char)) : List Char :=
  tok ++ (if arr then ['[', ']'] else []) ++
    (match ds with
     | some d => '(' :: (d ++ [')'])
     | none => [])

/-- A compact grammar string assembled from its three components. -/
def mkCompact (tok : String) (arr : Bool) (ds : Option String) : String :=
  String.mk (mkCompactL tok.data arr (ds.map String.data))

/-- The value handed to the coercer for the captured default group:
undefined when the group is absent, its content string otherwise. -/
def jsValOfDefSeg : Option String → JSValue
  | none => .undefined
  | some d => .str d

/-- takeWhile runs through a prefix every character of which satisfies
the predicate. -/
theorem takeWhile_append_all {p : Char → Bool} :
    ∀ {xs ys : List Char}, (∀ c ∈ xs, p c = true) →
      (xs ++ ys).takeWhile p = xs ++ ys.takeWhile p := by
  intro xs ys h
  induction xs with
  | nil => simp
  | cons c ct ih =>
      simp only [List.cons_append, List.takeWhile_cons]
      rw [h c (by simp)]
      simp only [if_true]
      rw [ih (fun c2 hc => h c2 (by simp [hc]))]

/-- dropWhile is the identity when no character satisfies the predicate. -/
theorem dropWhile_all_false {p : Char → Bool} :
    ∀ {l : List Char}, (∀ c ∈ l, p c = false) → l.dropWhile p = l := by
  intro l h
  cases l with
  | nil => rfl
  | cons c ct => simp [List.dropWhile, h c (by simp)]

/-- The parenthesis group matches a parenthesized run that contains no
closing parenthesis, capturing it whole. -/
theorem matchParen_mk (d : List Char) (h3 : ∀ c ∈ d, (c == ')') = false) :
    matchParen ('(' :: (d ++ [')'])) = some d := by
  have hc : (d ++ [')']).takeWhile (fun c => !(c == ')')) = d := by
    rw [takeWhile_append_all (fun c hc => by simp [h3 c hc])]
    simp [List.takeWhile]
  have hd2 : (d ++ [')']).drop d.length = [')'] := List.drop_left d [')']
  simp [matchParen, hc, hd2]

/-- The anchored pattern attempt succeeds on a well-formed compact
grammar string and produces exactly its three components. -/
theorem matchParamAt_mk (tok : List Char) (arr : Bool) (ds : Option (List Char))
    (h1 : tok ≠ []) (h2 : ∀ c ∈ tok, isWordChar c = true)
    (h3 : ∀ d, ds = some d → ∀ c ∈ d, (c == ')') = false) :
    matchParamAt (mkCompactL tok arr ds) = some ⟨tok, arr, ds⟩ := by
  have hne : tok.isEmpty = false := by
    cases tok
    · exact absurd rfl h1
    · rfl
  have htok : ∀ ys : List Char, ys.takeWhile isWordChar = [] →
      (tok ++ ys).takeWhile isWordChar = tok := by
    intro ys hy
    rw [takeWhile_append_all h2, hy, List.append_nil]
  rcases ds with _ | d <;> cases arr <;>
    simp only [mkCompactL, List.append_nil, List.nil_append, Bool.false_eq_true,
      if_false, if_true, List.append_assoc]
  · have hw := htok [] rfl
    rw [List.append_nil] at hw
    simp [matchParamAt, hw, hne, List.drop_length, matchBrackets, matchParen]
  · have hw := htok ['[', ']'] (by decide)
    simp [matchParamAt, hw, hne, List.drop_left, matchBrackets, matchParen]
  · have hw := htok ('(' :: (d ++ [')'])) (by simp [List.takeWhile, isWordChar])
    simp [matchParamAt, hw, hne, List.drop_left, matchBrackets,
      matchParen_mk d (h3 d rfl)]
  · have hw := htok ('[' :: ']' :: '(' :: (d ++ [')'])) (by simp [List.takeWhile, isWordChar])
    simp [matchParamAt, hw, hne, List.drop_left, matchBrackets,
      matchParen_mk d (h3 d rfl)]

/-- The leftmost search finds the anchored match on a well-formed compact
grammar string, since such a string starts with a word character. -/
theorem findParamMatch_mk (tok : List Char) (arr : Bool) (ds : Option (List Char))
    (h1 : tok ≠ []) (h2 : ∀ c ∈ tok, isWordChar c = true)
    (h3 : ∀ d, ds = some d → ∀ c ∈ d, (c == ')') = false) :
    findParamMatch (mkCompactL tok arr ds) = some ⟨tok, arr, ds⟩ := by
  have hmain := matchParamAt_mk tok arr ds h1 h2 h3
  cases htok : tok with
  | nil => exact absurd htok h1
  | cons c ct =>
      subst htok
      rcases ds with _ | d <;> cases arr <;>
        simp only [mkCompactL, if_true, if_false, Bool.false_eq_true, List.append_nil,
          List.nil_append, List.cons_append] at hmain ⊢ <;>
        simp only [findParamMatch, hmain]

/-- Word characters are not whitespace. -/
theorem word_not_ws (c : Char) (h : isWordChar c = true) : c.isWhitespace = false := by
  by_contra hne
  rw [Bool.not_eq_false] at hne
  have hcs : ((c = ' ' ∨ c = '\t') ∨ c = '\r') ∨ c = '\n' := by
    simpa [Char.isWhitespace] using hne
  rcases hcs with ⟨⟨h1 | h1⟩ | h1⟩ | h1 <;> subst h1 <;> exact absurd h (by decide)

/-- Trimming is the identity on a string of word characters. -/
theorem jsTrimL_word (l : List Char) (h : ∀ c ∈ l, isWordChar c = true) :
    jsTrimL l = l := by
  unfold jsTrimL
  rw [dropWhile_all_false (fun c hc => word_not_ws c (h c hc))]
  rw [dropWhile_all_false (fun c hc => word_not_ws c (h c (List.mem_reverse.mp hc)))]
  exact List.reverse_reverse l

/-- C1: for every compact grammar string, a successful parseParam gives a
definition that is required iff the parenthesized default segment is
absent (an empty pair of parentheses counting as present), whose type is
the lowercased type token, whose arrayness reflects a trailing bracket
pair, and whose default is the captured literal run through the value
coercer; in particular the two concrete examples of the specification
evaluate as stated. -/
theorem parseParam_compact_grammar :
    (∀ (tok : String) (arr : Bool) (ds : Option String),
      tok.data ≠ [] →
      (∀ c ∈ tok.data, isWordChar c = true) →
      (∀ d, ds = some d → ∀ c ∈ d.data, (c == ')') = false) →
      ∀ d2 : ParamDefJS, parseParamStr (mkCompact tok arr ds) = .ok d2 →
        d2.required = ds.isNone ∧
        d2.type = jsToLower tok ∧
        d2.array = arr ∧
        parseValue d2.type (jsValOfDefSeg ds) arr = .ok d2.default)
    ∧ parseParamStr "integer[](1,2,3)"
        = .ok { type := "integer", default := .arr [.num 1, .num 2, .num 3],
                required := false, array := true }
    ∧ parseParamStr "string"
        = .ok { type := "string", default := .undefined, required := true, array := false } := by
  refine ⟨?_, by decide, by decide⟩
  intro tok arr ds h1 h2 h3 d2 hok
  have hm : findParamMatch (mkCompact tok arr ds).data
      = some ⟨tok.data, arr, ds.map String.data⟩ := by
    rw [show (mkCompact tok arr ds).data = mkCompactL tok.data arr (ds.map String.data) from rfl]
    refine findParamMatch_mk tok.data arr (ds.map String.data) h1 h2 ?_
    intro d hd c hc
    cases ds with
    | none => cases hd
    | some d0 =>
        have hd0 : d = d0.data := by
          injection hd with hd2
          exact hd2.symm
        exact h3 d0 rfl c (hd0 ▸ hc)
  obtain ⟨htype, harr, hreq, hdflt, _⟩ := parseParamStr_ok _ _ hm d2 hok
  have htrim : jsTrimL tok.data = tok.data := jsTrimL_word tok.data h2
  refine ⟨?_, ?_, harr, ?_⟩
  · rw [hreq]
    cases ds <;> rfl
  · rw [htype, htrim]
    rfl
  · cases ds with
    | none => simpa using hdflt
    | some d0 =>
        have : JSValue.str (String.mk d0.data) = jsValOfDefSeg (some d0) := rfl
        simpa [this] using hdflt

/-- C1 witness. -/
theorem parseParam_compact_grammar_witness :
    ({ type := "bool", default := .undefined, required := true, array := false } :
        ParamDefJS).required = (none : Option String).isNone
    ∧ ({ type := "bool", default := .undefined, required := true, array := false } :
        ParamDefJS).type = jsToLower "bool" := by
  have h := parseParam_compact_grammar.1 "bool" false none (by decide) (by decide)
      (fun d hd => by cases hd)
      { type := "bool", default := .undefined, required := true, array := false } (by decide)
  exact ⟨h.1, h.2.1⟩

/-- Reading a map after a write: the written key returns the new value,
every other key is unchanged. -/
theorem amGet_amSet {α : Type} (m : List (String × α)) (k1 k2 : String) (v : α) :
    amGet (amSet m k1 v) k2 = if k1 = k2 then some v else amGet m k2 := by
  induction m with
  | nil => simp [amSet, amGet]
  | cons e r ih =>
      obtain ⟨ka, va⟩ := e
      by_cases h1 : ka = k1
      · subst h1
        by_cases h2 : ka = k2 <;> simp [amSet, amGet, h2]
      · by_cases h2 : ka = k2
        · subst h2
          have hne : k1 ≠ ka := fun hc => h1 hc.symm
          simp [amSet, amGet, h1, hne, ih]
        · simp [amSet, amGet, h1, h2, ih]

/-- A key absent from the binding list reads as none. -/
theorem amGet_eq_none_of_not_mem {α : Type} :
    ∀ (m : List (String × α)) (k : String), k ∉ m.map Prod.fst → amGet m k = none := by
  intro m
  induction m with
  | nil => intro k _; rfl
  | cons e r ih =>
      obtain ⟨ka, va⟩ := e
      intro k hk
      simp only [List.map_cons, List.mem_cons] at hk
      push_neg at hk
      have h1 : ¬ka = k := fun hc => hk.1 hc.symm
      simp [amGet, h1, ih k hk.2]

/-- Rewriting a key with the value it already holds is the identity. -/
theorem amSet_self_id {α : Type} :
    ∀ (m : List (String × α)) (k : String) (v : α), amGet m k = some v → amSet m k v = m := by
  intro m
  induction m with
  | nil => intro k v h; cases h
  | cons e r ih =>
      obtain ⟨ka, va⟩ := e
      intro k v h
      by_cases hk : ka = k
      · subst hk
        simp only [amGet, if_pos rfl] at h
        injection h with h2
        simp [amSet, h2]
      · simp only [amGet, if_neg hk] at h
        simp [amSet, hk, ih k v h]

/-- The bounds checks of one value touch only the entry of the checked
parameter. -/
theorem boundsCheckOne_other (name : String) (pc : ParamDefJS) (v : JSValue)
    (errors : ErrMap) (k : String) (hk : ¬name = k) :
    amGet (boundsCheckOne name pc v errors) k = amGet errors k := by
  unfold boundsCheckOne
  simp only [apply_ite (fun (e : ErrMap) => amGet e k), amGet_amSet, hk, if_false, ite_self]

/-- The bounds loop over a list of values touches only the entry of the
checked parameter. -/
theorem boundsFold_other (name : String) (pc : ParamDefJS) :
    ∀ (values : List JSValue) (errors : ErrMap) (k : String), ¬name = k →
      amGet (values.foldl (fun e v => boundsCheckOne name pc v e) errors) k = amGet errors k := by
  intro values
  induction values with
  | nil => intro errors k _; rfl
  | cons v vs ih =>
      intro errors k hk
      simp only [List.foldl_cons]
      rw [ih (boundsCheckOne name pc v errors) k hk, boundsCheckOne_other name pc v errors k hk]

/-- The required check touches only the entry of the checked parameter. -/
theorem requiredCheck_other (params : JSMap) (errors : ErrMap) (name : String)
    (pc : ParamDefJS) (k : String) (hk : ¬name = k) :
    amGet (requiredCheck params errors name pc) k = amGet errors k := by
  unfold requiredCheck
  split_ifs <;> simp [amGet_amSet, hk]

/-- Checking one parameter can only write that parameter into the error
mapping. -/
theorem checkOne_other (env : ValEnv) (params : JSMap) (errors : ErrMap) (name : String)
    (pc : ParamDefJS) (errs2 : ErrMap) (h : checkOne env params errors name pc = .ok errs2)
    (k : String) (hk : ¬name = k) : amGet errs2 k = amGet errors k := by
  unfold checkOne at h
  by_cases hv : jsTruthy pc.validate = true
  · rw [if_pos hv] at h
    cases hcv : callValidate env pc.validate (jsGet params name) name pc with
    | error e =>
        rw [hcv] at h
        exact absurd (show (Except.error e : Except String ErrMap) = .ok errs2 from h) (by simp)
    | ok err =>
        rw [hcv] at h
        injection h with h2
        rw [← h2]
        split_ifs
        · simp [amGet_amSet, hk]
        · rfl
  · rw [if_neg hv] at h
    injection h with h2
    rw [← h2]
    exact (boundsFold_other name pc (valuesOf (jsGet params name))
        (requiredCheck params errors name pc) k hk).trans
      (requiredCheck_other params errors name pc k hk)

/-- The checking loop leaves entries of parameters outside the remaining
declaration list unchanged. -/
theorem checkParamsAux_not_mem (env : ValEnv) (params : JSMap) :
    ∀ (l : List (String × ParamDefJS)) (errors res : ErrMap),
      checkParamsAux env params l errors = .ok res →
      ∀ k, k ∉ l.map Prod.fst → amGet res k = amGet errors k := by
  intro l
  induction l with
  | nil =>
      intro errors res h k _
      injection h with h2
      rw [← h2]
  | cons e rest ih =>
      obtain ⟨n, pc⟩ := e
      intro errors res h k hk
      simp only [List.map_cons, List.mem_cons] at hk
      push_neg at hk
      cases hco : checkOne env params errors n pc with
      | error err =>
          rw [show checkParamsAux env params ((n, pc) :: rest) errors
                = (checkOne env params errors n pc) >>= (fun errors2 =>
                    checkParamsAux env params rest errors2) from rfl, hco] at h
          exact absurd (show (Except.error err : Except String ErrMap) = .ok res from h) (by simp)
      | ok errors2 =>
          rw [show checkParamsAux env params ((n, pc) :: rest) errors
                = (checkOne env params errors n pc) >>= (fun errors2 =>
                    checkParamsAux env params rest errors2) from rfl, hco] at h
          rw [ih errors2 res h k hk.2]
          exact checkOne_other env params errors n pc errors2 hco k (fun hc => hk.1 hc.symm)

/-- Inner induction for the validator short-circuit property, generalized
over the error accumulator. -/
theorem checkParamsAux_validator (env : ValEnv) (params : JSMap) (name : String)
    (pc : ParamDefJS) (id : Nat)
    (hval : pc.validate = .fn id)
    (htru : jsTruthy (env id (jsGet params name) name pc) = true) :
    ∀ (l : List (String × ParamDefJS)) (errors res : ErrMap),
      (l.map Prod.fst).Nodup → (name, pc) ∈ l →
      checkParamsAux env params l errors = .ok res →
      amGet res name = some ⟨pc.type, env id (jsGet params name) name pc, none, none⟩ := by
  intro l
  induction l with
  | nil => intro errors res _ hmem _; cases hmem
  | cons e rest ih =>
      obtain ⟨n, pc2⟩ := e
      intro errors res hnd hmem h
      cases hco : checkOne env params errors n pc2 with
      | error err =>
          rw [show checkParamsAux env params ((n, pc2) :: rest) errors
                = (checkOne env params errors n pc2) >>= (fun errors2 =>
                    checkParamsAux env params rest errors2) from rfl, hco] at h
          exact absurd (show (Except.error err : Except String ErrMap) = .ok res from h) (by simp)
      | ok errors2 =>
          rw [show checkParamsAux env params ((n, pc2) :: rest) errors
                = (checkOne env params errors n pc2) >>= (fun errors2 =>
                    checkParamsAux env params rest errors2) from rfl, hco] at h
          rcases List.mem_cons.mp hmem with hhead | htail
          · injection hhead with hn hpc
            subst hn
            subst hpc
            have hco2 : errors2 = amSet errors name
                ⟨pc.type, env id (jsGet params name) name pc, none, none⟩ := by
              unfold checkOne at hco
              rw [if_pos (by rw [hval]; rfl)] at hco
              rw [show callValidate env pc.validate (jsGet params name) name pc
                    = .ok (env id (jsGet params name) name pc) by rw [hval]; rfl] at hco
              rw [show ((Except.ok (env id (jsGet params name) name pc) : Except String JSValue)
                    >>= (fun err => pure (if jsTruthy err = true then
                      amSet errors name ⟨pc.type, err, none, none⟩ else errors)))
                    = Except.ok (if jsTruthy (env id (jsGet params name) name pc) = true then
                      amSet errors name ⟨pc.type, env id (jsGet params name) name pc, none, none⟩
                      else errors) from rfl] at hco
              injection hco with h2
              rw [← h2, if_pos htru]
            have hnotin : name ∉ rest.map Prod.fst := by
              have := hnd
              simp only [List.map_cons, List.nodup_cons] at this
              exact this.1
            rw [checkParamsAux_not_mem env params rest errors2 res h name hnotin]
            rw [hco2]
            simp [amGet_amSet]
          · have hnd2 : (rest.map Prod.fst).Nodup := by
              simp only [List.map_cons, List.nodup_cons] at hnd
              exact hnd.2
            exact ih errors2 res hnd2 htail h

/-- C5: a declared parameter with a custom validate function has the
validator called with the value, the name and the definition; a truthy
return value is recorded as exactly that parameter error (with the
parameter type), and no built-in required or bounds check can change it. -/
theorem checkParams_validator_short_circuit :
    ∀ (env : ValEnv) (cfgParams : List (String × ParamDefJS)) (params : JSMap)
      (name : String) (pc : ParamDefJS) (id : Nat) (res : ErrMap),
      (cfgParams.map Prod.fst).Nodup →
      (name, pc) ∈ cfgParams →
      pc.validate = .fn id →
      jsTruthy (env id (jsGet params name) name pc) = true →
      checkParams env cfgParams params = .ok res →
      amGet res name = some ⟨pc.type, env id (jsGet params name) name pc, none, none⟩ := by
  intro env cfgParams params name pc id res hnd hmem hval htru h
  exact checkParamsAux_validator env params name pc id hval htru cfgParams [] res hnd hmem h

/-- Validator environment used by the C5 witness: every hook returns a
fixed message. -/
def validatorEnvW : ValEnv := fun _ _ _ _ => JSValue.str "invalid value"

/-- Parameter definition used by the C5 witness: a required string with
min bound and a custom validator. -/
def pcW : ParamDefJS :=
  { type := "string", required := true, min := .num 3, validate := .fn 0 }

/-- C5 witness. -/
theorem checkParams_validator_short_circuit_witness :
    amGet [("a", (⟨"string", .str "invalid value", none, none⟩ : MissingInfo))] "a"
      = some ⟨"string", validatorEnvW 0 (jsGet [] "a") "a" pcW, none, none⟩ :=
  checkParams_validator_short_circuit validatorEnvW [("a", pcW)] [] "a" pcW 0
    [("a", (⟨"string", .str "invalid value", none, none⟩ : MissingInfo))]
    (by decide) (by decide) rfl (by decide) (by decide)

/-- C6: when validation produced a non-empty error mapping and no custom
error hook is configured, verify responds 422 in every runtime mode, with
the structured body carrying the error mapping exactly in development
mode and a null body in every other mode. -/
theorem verify_missing_params_responds_422 :
    ∀ (env : ValEnv) (config : EndpointCfg) (req : Request) (nodeEnv : Option String)
      (params : JSMap) (missing : ErrMap),
      getParams config req = .ok params →
      checkParams env config.params params = .ok missing →
      missing ≠ [] →
      jsTruthy config.error = false →
      verify env (some config) req nodeEnv
        = .respond (if nodeEnv = some "development"
                    then .errObj "Required parameters are missing" missing
                    else .empty) 422 := by
  intro env config req nodeEnv params missing hget hcheck hne herr
  simp only [verify, hget, hcheck]
  have hlen : missing.length ≠ 0 := fun hc => hne (List.length_eq_zero.mp hc)
  rw [if_pos hlen]
  rw [if_neg (by simp [herr])]
  by_cases hd : nodeEnv = some "development" <;> simp [hd]

/-- Validator environment of the C6 witness (never invoked there). -/
def envW6 : ValEnv := fun _ _ _ _ => JSValue.undefined

/-- Endpoint configuration of the C6 witness: one required string
parameter, no hooks. -/
def cfgW6 : EndpointCfg :=
  { params := [("name", { type := "string", required := true })],
    paramOrder := ["query"], paramMap := "args" }

/-- Request of the C6 witness: no sources at all. -/
def reqW6 : Request := ⟨fun _ => none⟩

/-- C6 witness. -/
theorem verify_missing_params_responds_422_witness :
    verify envW6 (some cfgW6) reqW6 (some "development")
      = .respond (.errObj "Required parameters are missing"
          [("name", ⟨"string", .str "not set", none, none⟩)]) 422 := by
  have h := verify_missing_params_responds_422 envW6 cfgW6 reqW6 (some "development")
      [] [("name", ⟨"string", .str "not set", none, none⟩)]
      (by decide) (by decide) (by decide) (by decide)
  simpa using h

/-- Filling leaves every entry that is already defined unchanged. -/
theorem fillParams_defined_unchanged :
    ∀ (cfg : List (String × ParamDefJS)) (params : JSMap) (k : String),
      jsGet params k ≠ .undefined →
      amGet (fillParams cfg params) k = amGet params k := by
  intro cfg
  induction cfg with
  | nil => intro params k _; rfl
  | cons e rest ih =>
      obtain ⟨n, pc⟩ := e
      intro params k h
      simp only [fillParams]
      by_cases hn : jsGet params n = .undefined
      · rw [if_pos hn]
        by_cases hk : n = k
        · subst hk
          exact absurd hn h
        · have hset : amGet (amSet params n pc.default) k = amGet params k := by
            simp [amGet_amSet, hk]
          have hget : jsGet (amSet params n pc.default) k ≠ .undefined := by
            unfold jsGet
            rw [hset]
            exact h
          rw [ih (amSet params n pc.default) k hget, hset]
      · rw [if_neg hn]
        exact ih params k h

/-- Filling leaves every undeclared key unchanged. -/
theorem fillParams_undeclared_unchanged :
    ∀ (cfg : List (String × ParamDefJS)) (params : JSMap) (k : String),
      k ∉ cfg.map Prod.fst →
      amGet (fillParams cfg params) k = amGet params k := by
  intro cfg
  induction cfg with
  | nil => intro params k _; rfl
  | cons e rest ih =>
      obtain ⟨n, pc⟩ := e
      intro params k hk
      simp only [List.map_cons, List.mem_cons] at hk
      push_neg at hk
      have hnk : n ≠ k := fun hc => hk.1 hc.symm
      simp only [fillParams]
      by_cases hn : jsGet params n = .undefined
      · rw [if_pos hn]
        rw [ih (amSet params n pc.default) k hk.2]
        simp [amGet_amSet, hnk]
      · rw [if_neg hn]
        exact ih params k hk.2

/-- Filling never removes a present key. -/
theorem fillParams_isSome_mono :
    ∀ (cfg : List (String × ParamDefJS)) (params : JSMap) (k : String),
      (amGet params k).isSome → (amGet (fillParams cfg params) k).isSome := by
  intro cfg
  induction cfg with
  | nil => intro params k h; exact h
  | cons e rest ih =>
      obtain ⟨n, pc⟩ := e
      intro params k h
      simp only [fillParams]
      by_cases hn : jsGet params n = .undefined
      · rw [if_pos hn]
        refine ih (amSet params n pc.default) k ?_
        by_cases hk : n = k
        · subst hk
          simp [amGet_amSet]
        · simp [amGet_amSet, hk]
          exact h
      · rw [if_neg hn]
        exact ih params k h

/-- After filling, every declared key is present in the map. -/
theorem fillParams_key_present :
    ∀ (cfg : List (String × ParamDefJS)) (params : JSMap) (n : String) (pc : ParamDefJS),
      (n, pc) ∈ cfg → (amGet (fillParams cfg params) n).isSome := by
  intro cfg
  induction cfg with
  | nil => intro params n pc h; cases h
  | cons e rest ih =>
      obtain ⟨n2, pc2⟩ := e
      intro params n pc hmem
      rcases List.mem_cons.mp hmem with hhead | htail
      · injection hhead with hn hpc
        subst hn
        simp only [fillParams]
        by_cases hn2 : jsGet params n = .undefined
        · rw [if_pos hn2]
          refine fillParams_isSome_mono rest (amSet params n pc2.default) n ?_
          simp [amGet_amSet]
        · rw [if_neg hn2]
          refine fillParams_isSome_mono rest params n ?_
          unfold jsGet at hn2
          cases hg : amGet params n with
          | none => rw [hg] at hn2; exact absurd rfl hn2
          | some v => simp
      · simp only [fillParams]
        split_ifs <;> exact ih _ n pc htail

/-- After filling with a duplicate-free declaration list, a declared key
that still reads undefined has an undefined declared default. -/
theorem fillParams_fix :
    ∀ (cfg : List (String × ParamDefJS)) (params : JSMap) (n : String) (pc : ParamDefJS),
      (cfg.map Prod.fst).Nodup → (n, pc) ∈ cfg →
      jsGet (fillParams cfg params) n = .undefined → pc.default = .undefined := by
  intro cfg
  induction cfg with
  | nil => intro params n pc _ hmem _; cases hmem
  | cons e rest ih =>
      obtain ⟨n2, pc2⟩ := e
      intro params n pc hnd hmem hu
      simp only [List.map_cons, List.nodup_cons] at hnd
      rcases List.mem_cons.mp hmem with hhead | htail
      · injection hhead with hn hpc
        subst hn
        subst hpc
        simp only [fillParams] at hu
        by_cases h0 : jsGet params n = .undefined
        · rw [if_pos h0] at hu
          have hrest : amGet (fillParams rest (amSet params n pc.default)) n
              = amGet (amSet params n pc.default) n :=
            fillParams_undeclared_unchanged rest _ n hnd.1
          unfold jsGet at hu
          rw [hrest] at hu
          simpa [amGet_amSet] using hu
        · rw [if_neg h0] at hu
          have := fillParams_defined_unchanged rest params n h0
          unfold jsGet at hu h0
          rw [this] at hu
          exact absurd hu h0
      · simp only [fillParams] at hu
        split_ifs at hu <;> exact ih _ n pc hnd.2 htail hu

/-- A map in which every declared key is present, and reads undefined only
when its declared default is undefined, is a fixed point of filling. -/
theorem fillParams_fixed :
    ∀ (cfg : List (String × ParamDefJS)) (m2 : JSMap),
      (∀ p ∈ cfg, (amGet m2 p.1).isSome) →
      (∀ p ∈ cfg, jsGet m2 p.1 = .undefined → p.2.default = .undefined) →
      fillParams cfg m2 = m2 := by
  intro cfg
  induction cfg with
  | nil => intro m2 _ _; rfl
  | cons e rest ih =>
      obtain ⟨n, pc⟩ := e
      intro m2 h1 h2
      simp only [fillParams]
      by_cases h0 : jsGet m2 n = .undefined
      · rw [if_pos h0]
        have hdef : pc.default = .undefined := h2 (n, pc) (by simp) h0
        have hpres : (amGet m2 n).isSome := h1 (n, pc) (by simp)
        have hsome : amGet m2 n = some JSValue.undefined := by
          unfold jsGet at h0
          cases hg : amGet m2 n with
          | none => rw [hg] at hpres; cases hpres
          | some v =>
              rw [hg] at h0
              simp at h0
              rw [h0]
        rw [hdef, amSet_self_id m2 n JSValue.undefined hsome]
        exact ih m2 (fun p hp => h1 p (by simp [hp])) (fun p hp => h2 p (by simp [hp]))
      · rw [if_neg h0]
        exact ih m2 (fun p hp => h1 p (by simp [hp])) (fun p hp => h2 p (by simp [hp]))

/-- C9: fillParams assigns a declared default only to parameters whose
value reads undefined, leaves every already-defined entry and every
undeclared key unchanged, and is idempotent on duplicate-free parameter
declarations. -/
theorem fillParams_only_fills_undefined_and_idempotent :
    ∀ (cfgParams : List (String × ParamDefJS)) (params : JSMap),
      (cfgParams.map Prod.fst).Nodup →
      (∀ k, jsGet params k ≠ .undefined →
        amGet (fillParams cfgParams params) k = amGet params k)
      ∧ (∀ k, k ∉ cfgParams.map Prod.fst →
        amGet (fillParams cfgParams params) k = amGet params k)
      ∧ fillParams cfgParams (fillParams cfgParams params) = fillParams cfgParams params := by
  intro cfg params hnd
  refine ⟨fun k => fillParams_defined_unchanged cfg params k,
          fun k => fillParams_undeclared_unchanged cfg params k, ?_⟩
  apply fillParams_fixed
  · intro p hp
    exact fillParams_key_present cfg params p.1 p.2 hp
  · intro p hp hu
    exact fillParams_fix cfg params p.1 p.2 hnd hp hu

/-- Parameter definition used by the C9 witness. -/
def pcW9 : ParamDefJS := { type := "integer", default := .num 18 }

/-- C9 witness. -/
theorem fillParams_only_fills_undefined_and_idempotent_witness :
    fillParams [("age", pcW9)] (fillParams [("age", pcW9)] []) = fillParams [("age", pcW9)] [] :=
  (fillParams_only_fills_undefined_and_idempotent [("age", pcW9)] [] (by decide)).2.2

/-- First-defined choice on options. -/
def optOr {α : Type} : Option α → Option α → Option α
  | some a, _ => some a
  | none, b => b

/-- Raw values a name carries across the listed sources, in source
order (at most one per source). -/
def rawOccsProps (req : Request) (name : String) (props : List String) : List JSValue :=
  props.filterMap (fun prop => (req.sources prop).bind (fun src => amGet src name))

/-- Left-to-right scan of the coercions of the raw occurrences of a
name: the first defined coerced value wins, and a run of undefined
coercions still registers the name with the value undefined. -/
def scanRaws (type : String) (arr : Bool) : List JSValue → Except String (Option JSValue)
  | [] => .ok none
  | r :: rs => do
      let v ← parseValue type r arr
      if v = .undefined then do
        let rest ← scanRaws type arr rs
        pure (some (rest.getD .undefined))
      else pure (some v)

/-- Scan continued from the state an earlier source left behind: a
defined value already captured is final, otherwise the scan of the
remaining raw occurrences decides, keeping an undefined placeholder. -/
def scanFrom (type : String) (arr : Bool) (init : Option JSValue) (raws : List JSValue) :
    Except String (Option JSValue) :=
  if init.getD .undefined ≠ .undefined then .ok init
  else (scanRaws type arr raws).map (fun r => optOr r init)

/-- What one source pass does to the accumulator, entry by entry: keys
absent from the source and undeclared keys are untouched, an entry
already defined is untouched, and an undefined entry whose name the
source carries receives its coerced raw value. -/
theorem getFromSource_spec (cfgParams : List (String × ParamDefJS)) :
    ∀ src : JSMap, (src.map Prod.fst).Nodup →
      ∀ params params2 : JSMap,
      getFromSource cfgParams src params = .ok params2 →
      (∀ name, amGet src name = none → amGet params2 name = amGet params name) ∧
      (∀ name, amGet cfgParams name = none → amGet params2 name = amGet params name) ∧
      (∀ name pc, amGet cfgParams name = some pc →
        (jsGet params name ≠ .undefined → amGet params2 name = amGet params name) ∧
        (jsGet params name = .undefined →
          ∀ raw, amGet src name = some raw →
            ∃ v, parseValue pc.type raw pc.array = .ok v ∧ amGet params2 name = some v)) := by
  intro src
  induction src with
  | nil =>
      intro _ params params2 h
      injection h with h2
      subst h2
      refine ⟨fun _ _ => rfl, fun _ _ => rfl,
        fun name pc _ => ⟨fun _ => rfl, fun _ raw hr => ?_⟩⟩
      cases hr
  | cons e rest ih =>
      obtain ⟨k, raw0⟩ := e
      intro hnd params params2 h
      simp only [List.map_cons, List.nodup_cons] at hnd
      obtain ⟨hknot, hndr⟩ := hnd
      cases hdk : amGet cfgParams k with
      | none =>
          simp only [getFromSource, hdk] at h
          obtain ⟨ih1, ih2, ih3⟩ := ih hndr params params2 h
          refine ⟨?_, ih2, ?_⟩
          · intro name hnone
            simp only [amGet] at hnone
            split_ifs at hnone with hkn
            exact ih1 name hnone
          · intro name pc hdecl
            refine ⟨(ih3 name pc hdecl).1, ?_⟩
            intro hundef raw hraw
            simp only [amGet] at hraw
            split_ifs at hraw with hkn
            · injection hraw with hr2
              rw [hkn] at hdk
              rw [hdk] at hdecl
              cases hdecl
            · exact (ih3 name pc hdecl).2 hundef raw hraw
      | some pc0 =>
          simp only [getFromSource, hdk] at h
          by_cases hjk : jsGet params k = .undefined
          · rw [if_pos hjk] at h
            cases hpv : parseValue pc0.type raw0 pc0.array with
            | error e2 =>
                rw [hpv] at h
                exact absurd (show (Except.error e2 : Except String JSMap) = .ok params2 from h)
                  (by simp)
            | ok v =>
                rw [hpv] at h
                replace h : getFromSource cfgParams rest (amSet params k v) = .ok params2 := h
                obtain ⟨ih1, ih2, ih3⟩ := ih hndr (amSet params k v) params2 h
                have hsetk : amGet (amSet params k v) k = some v := by simp [amGet_amSet]
                have hsetother : ∀ name, ¬k = name →
                    amGet (amSet params k v) name = amGet params name := by
                  intro name hkn
                  simp [amGet_amSet, hkn]
                refine ⟨?_, ?_, ?_⟩
                · intro name hnone
                  simp only [amGet] at hnone
                  split_ifs at hnone with hkn
                  rw [ih1 name hnone, hsetother name hkn]
                · intro name hdecl2
                  have hkn : ¬k = name := by
                    intro hc
                    rw [hc] at hdk
                    rw [hdk] at hdecl2
                    cases hdecl2
                  rw [ih2 name hdecl2, hsetother name hkn]
                · intro name pc hdecl
                  by_cases hkn : k = name
                  · subst hkn
                    have hpc : pc = pc0 := by
                      rw [hdk] at hdecl
                      injection hdecl with h3
                      exact h3.symm
                    subst hpc
                    constructor
                    · intro hdef
                      exact absurd hjk hdef
                    · intro _ raw hraw
                      simp only [amGet, if_pos rfl] at hraw
                      injection hraw with hr2
                      subst hr2
                      refine ⟨v, hpv, ?_⟩
                      have hnr : amGet rest k = none := amGet_eq_none_of_not_mem rest k hknot
                      rw [ih1 k hnr, hsetk]
                  · have hju : jsGet (amSet params k v) name = jsGet params name := by
                      unfold jsGet
                      rw [hsetother name hkn]
                    constructor
                    · intro hdef
                      have := (ih3 name pc hdecl).1 (by rw [hju]; exact hdef)
                      rw [this, hsetother name hkn]
                    · intro hundef raw hraw
                      simp only [amGet] at hraw
                      rw [if_neg hkn] at hraw
                      obtain ⟨v2, hv2, hp2⟩ :=
                        (ih3 name pc hdecl).2 (by rw [hju]; exact hundef) raw hraw
                      exact ⟨v2, hv2, hp2⟩
          · rw [if_neg hjk] at h
            obtain ⟨ih1, ih2, ih3⟩ := ih hndr params params2 h
            refine ⟨?_, ih2, ?_⟩
            · intro name hnone
              simp only [amGet] at hnone
              split_ifs at hnone with hkn
              exact ih1 name hnone
            · intro name pc hdecl
              refine ⟨(ih3 name pc hdecl).1, ?_⟩
              intro hundef raw hraw
              simp only [amGet] at hraw
              split_ifs at hraw with hkn
              · rw [hkn] at hjk
                exact absurd hundef hjk
              · exact (ih3 name pc hdecl).2 hundef raw hraw

/-- Unfolding equation of the scan on a nonempty occurrence list. -/
theorem scanRaws_cons (t : String) (a : Bool) (raw : JSValue) (rs : List JSValue) :
    scanRaws t a (raw :: rs) = (parseValue t raw a) >>= (fun v =>
      if v = .undefined then
        (scanRaws t a rs) >>= (fun rest2 => pure (some (rest2.getD .undefined)))
      else pure (some v)) := rfl

/-- The extraction loop computes, for every declared name, exactly the
continued scan of its raw occurrences across the remaining sources, and
leaves undeclared names untouched. -/
theorem getParamsAux_spec (config : EndpointCfg) (req : Request)
    (hsrc : ∀ prop src, req.sources prop = some src → (src.map Prod.fst).Nodup) :
    ∀ (props : List String) (params m : JSMap),
      getParamsAux config req props params = .ok m →
      (∀ name, amGet config.params name = none → amGet m name = amGet params name) ∧
      (∀ name pc, amGet config.params name = some pc →
        scanFrom pc.type pc.array (amGet params name) (rawOccsProps req name props)
          = .ok (amGet m name)) := by
  intro props
  induction props with
  | nil =>
      intro params m h
      injection h with h2
      subst h2
      refine ⟨fun _ _ => rfl, ?_⟩
      intro name pc _
      unfold scanFrom
      by_cases hd : (amGet params name).getD .undefined ≠ .undefined
      · rw [if_pos hd]
      · rw [if_neg hd]
        show (scanRaws pc.type pc.array []).map (fun r => optOr r (amGet params name))
          = .ok (amGet params name)
        rfl
  | cons prop rest ih =>
      intro params m h
      cases hs : req.sources prop with
      | none =>
          simp only [getParamsAux, hs] at h
          obtain ⟨ihu, ihd⟩ := ih params m h
          refine ⟨ihu, ?_⟩
          intro name pc hdecl
          have hocc : rawOccsProps req name (prop :: rest) = rawOccsProps req name rest := by
            simp [rawOccsProps, List.filterMap_cons, hs]
          rw [hocc]
          exact ihd name pc hdecl
      | some src =>
          simp only [getParamsAux, hs] at h
          cases hgfs : getFromSource config.params src params with
          | error e =>
              rw [hgfs] at h
              exact absurd (show (Except.error e : Except String JSMap) = .ok m from h) (by simp)
          | ok params2 =>
              rw [hgfs] at h
              replace h : getParamsAux config req rest params2 = .ok m := h
              obtain ⟨sp1, sp2, sp3⟩ :=
                getFromSource_spec config.params src (hsrc prop src hs) params params2 hgfs
              obtain ⟨ihu, ihd⟩ := ih params2 m h
              refine ⟨?_, ?_⟩
              · intro name hnd
                rw [ihu name hnd, sp2 name hnd]
              · intro name pc hdecl
                by_cases hjn : jsGet params name = .undefined
                · cases hsn : amGet src name with
                  | none =>
                      have hocc : rawOccsProps req name (prop :: rest)
                          = rawOccsProps req name rest := by
                        simp [rawOccsProps, List.filterMap_cons, hs, hsn]
                      rw [hocc]
                      have hih := ihd name pc hdecl
                      rw [sp1 name hsn] at hih
                      exact hih
                  | some raw =>
                      have hocc : rawOccsProps req name (prop :: rest)
                          = raw :: rawOccsProps req name rest := by
                        simp [rawOccsProps, List.filterMap_cons, hs, hsn]
                      rw [hocc]
                      obtain ⟨v, hpv, hp2⟩ := (sp3 name pc hdecl).2 hjn raw hsn
                      have hih := ihd name pc hdecl
                      rw [hp2] at hih
                      unfold scanFrom at hih ⊢
                      have hun : ¬(amGet params name).getD .undefined ≠ .undefined := by
                        unfold jsGet at hjn
                        simp [hjn]
                      rw [if_neg hun]
                      by_cases hv : v = .undefined
                      · subst hv
                        rw [if_neg (by simp)] at hih
                        cases hsr : scanRaws pc.type pc.array (rawOccsProps req name rest) with
                        | error e2 =>
                            rw [hsr] at hih
                            exact absurd (show (Except.error e2 :
                                Except String (Option JSValue)) = .ok (amGet m name) from hih)
                              (by simp)
                        | ok r =>
                            rw [hsr] at hih
                            have hr2 : optOr r (some JSValue.undefined) = amGet m name := by
                              injection (show (Except.ok (optOr r (some JSValue.undefined)) :
                                Except String (Option JSValue)) = .ok (amGet m name) from hih)
                            rw [scanRaws_cons, hpv]
                            show ((if (JSValue.undefined : JSValue) = .undefined then
                                (scanRaws pc.type pc.array (rawOccsProps req name rest)) >>=
                                  (fun rest2 => pure (some (rest2.getD .undefined)))
                                else pure (some JSValue.undefined)).map
                                  (fun r => optOr r (amGet params name)))
                              = .ok (amGet m name)
                            rw [if_pos rfl, hsr]
                            show (Except.ok (optOr (some (r.getD .undefined))
                                (amGet params name)) : Except String (Option JSValue))
                              = .ok (amGet m name)
                            rw [← hr2]
                            cases r <;> rfl
                      · have hdef2 : ((some v).getD JSValue.undefined) ≠ .undefined := by
                          simpa using hv
                        rw [if_pos hdef2] at hih
                        have hv2 : some v = amGet m name := by
                          injection hih
                        rw [scanRaws_cons, hpv]
                        show ((if v = .undefined then
                            (scanRaws pc.type pc.array (rawOccsProps req name rest)) >>=
                              (fun rest2 => pure (some (rest2.getD .undefined)))
                            else pure (some v)).map (fun r => optOr r (amGet params name)))
                          = .ok (amGet m name)
                        rw [if_neg hv]
                        show (Except.ok (optOr (some v) (amGet params name)) :
                            Except String (Option JSValue)) = .ok (amGet m name)
                        rw [← hv2]
                        rfl
                · have hs3 := (sp3 name pc hdecl).1 hjn
                  have hih := ihd name pc hdecl
                  rw [hs3] at hih
                  unfold scanFrom at hih ⊢
                  have hdef2 : (amGet params name).getD .undefined ≠ .undefined := by
                    unfold jsGet at hjn
                    exact hjn
                  rw [if_pos hdef2] at hih ⊢
                  exact hih

/-- C7 amended: sources are visited in paramOrder; a raw value of a
source is coerced and recorded only when the name is declared and no
earlier source already produced a defined (non-undefined) coerced value,
so for every declared name the extracted value is exactly the continued
scan of its raw occurrences: the first source whose raw value coerces to
a defined value wins (a non-empty raw value whose coercion is undefined
does not stop later sources); names not declared in the parameter map
never appear in the extracted map. -/
theorem getParams_first_defined_coercion_wins :
    ∀ (config : EndpointCfg) (req : Request) (m : JSMap),
      (∀ prop src, req.sources prop = some src → (src.map Prod.fst).Nodup) →
      getParams config req = .ok m →
      (∀ name, amGet config.params name = none → amGet m name = none) ∧
      (∀ name pc, amGet config.params name = some pc →
        scanRaws pc.type pc.array (rawOccsProps req name config.paramOrder)
          = .ok (amGet m name)) := by
  intro config req m hsrc h
  obtain ⟨h1, h2⟩ := getParamsAux_spec config req hsrc config.paramOrder [] m h
  refine ⟨fun name hnd => h1 name hnd, ?_⟩
  intro name pc hdecl
  have hsf := h2 name pc hdecl
  unfold scanFrom at hsf
  rw [if_neg (by simp [amGet])] at hsf
  cases hsr : scanRaws pc.type pc.array (rawOccsProps req name config.paramOrder) with
  | error e =>
      rw [hsr] at hsf
      exact absurd (show (Except.error e : Except String (Option JSValue))
        = .ok (amGet m name) from hsf) (by simp)
  | ok r =>
      rw [hsr] at hsf
      have hr2 : optOr r none = amGet m name := by
        injection (show (Except.ok (optOr r none) : Except String (Option JSValue))
          = .ok (amGet m name) from hsf)
      rw [← hr2]
      cases r <;> rfl

/-- Source map of the C7 counterexample request. -/
def reqC7fun : String → Option JSMap := fun prop =>
  if prop = "query" then some [("x", .str "maybe")]
  else if prop = "body" then some [("x", .str "true")]
  else none

/-- Request of the C7 counterexample. -/
def reqC7 : Request := ⟨reqC7fun⟩

/-- Endpoint configuration of the C7 counterexample: one boolean
parameter, query before body. -/
def cfgC7 : EndpointCfg :=
  { params := [("x", { type := "boolean" })], paramOrder := ["query", "body"], paramMap := "args" }

/-- C7 counterexample: the first source in the order (query) defines the
non-empty raw value `maybe` for x, whose boolean coercion is undefined;
the extracted map nevertheless records the coercion of the second source
(body), so the first source in the order that defines a non-empty value
does not win as the claim states. -/
theorem getParams_nonempty_earlier_source_loses :
    getParams cfgC7 reqC7 = .ok [("x", .bool true)]
    ∧ parseValue "boolean" (.str "maybe") false = .ok .undefined
    ∧ JSValue.bool true ≠ JSValue.undefined :=
  ⟨by decide, by decide, by decide⟩

/-- C7 witness. -/
theorem getParams_first_defined_coercion_wins_witness :
    scanRaws "boolean" false (rawOccsProps reqC7 "x" cfgC7.paramOrder)
      = .ok (some (.bool true)) := by
  have h := getParams_first_defined_coercion_wins cfgC7 reqC7 [("x", .bool true)]
      (by intro prop src hsv
          simp only [reqC7, reqC7fun] at hsv
          split_ifs at hsv with h1 h2
          · injection hsv with h3
            rw [← h3]
            decide
          · injection hsv with h3
            rw [← h3]
            decide)
      (by decide)
  have h2 := h.2 "x" { type := "boolean" } (by decide)
  simpa using h2
